import Mathlib

set_option maxRecDepth 8192

/-!
Verification development for the PFA-CryptoMark keyed watermark codec
(`Back/core/watermark_processor.py`, `Back/core/watermark_methods.py`,
`Back/services/encryption_service.py`).

Modelling conventions:
* Byte strings (secrets, ciphertexts, digests) are `List ℕ` with entries < 256;
  text values are `String`, and `strBytes` maps an ASCII string to its bytes
  (UTF-8 restricted to ASCII, which covers every concrete input used here).
* A pixel buffer is the row-major flattening of the H×W image: the source's
  double loop `for i in range(height): for j in range(width):` visits exactly
  the pixels of this list in order, so `H*W` is the list length.  A colour
  pixel is an `(r, g, b)` triple of `ℕ` samples.
* `np.random.seed(seed)` followed by successive `np.random.random()` draws is
  modelled by an abstract draw sequence `u : ℕ → ℚ` (draw `k` of the seeded
  generator); successive `np.random.randint(0, 3)` draws (scalar or array
  fill) are modelled by an abstract sequence `chan : ℕ → ℕ` with values < 3.
  Embed and extract are given the *same* sequence exactly when they are run
  with the same seed, which is what the source arranges.
* The Fernet encryption layer (`cryptography.fernet`, third party) is
  abstracted by a pair `enc`/`dec` with a round-trip hypothesis; SHA-256 is
  implemented concretely below.
-/

namespace CryptoMark

/-! ### Words, bytes and bits -/

/-- Truncation to an unsigned 32-bit word. -/
def w32 (n : ℕ) : ℕ := n % 4294967296

/-- Big-endian bytes of `n`, `k` bytes wide (`int.to_bytes(k, 'big')` and the
SHA-256 length field). -/
def beBytes (k n : ℕ) : List ℕ := (List.range k).map (fun i => (n >>> (8 * (k - 1 - i))) % 256)

/-- `int.from_bytes(l, 'big')`. -/
def fromBytesBE (l : List ℕ) : ℕ := l.foldl (fun a b => 256 * a + b) 0

/-- `format(b, '08b')`: the 8 bits of a byte, most significant first. -/
def byteToBits (b : ℕ) : List ℕ := (List.range 8).map (fun i => (b >>> (7 - i)) % 2)

/-- `''.join(format(byte, '08b') for byte in l)`. -/
def bytesToBits : List ℕ → List ℕ
  | [] => []
  | b :: t => byteToBits b ++ bytesToBits t

/-- `int(s, 2)` on a list of binary digits, most significant first. -/
def bitsToNat (l : List ℕ) : ℕ := l.foldl (fun a b => 2 * a + b) 0

/-- Fuel-driven helper for `natToBinDigits`; structural recursion so that concrete
instances evaluate inside the kernel.  The fuel starts at `n`, which bounds the
number of halvings. -/
def natToBinDigitsGo : ℕ → ℕ → List ℕ
  | 0, n => [n]
  | fuel + 1, n => if n < 2 then [n] else natToBinDigitsGo fuel (n / 2) ++ [n % 2]

/-- The binary digits of `n`, most significant first (`format(n, 'b')`,
so `0` yields `[0]`). -/
def natToBinDigits (n : ℕ) : List ℕ := natToBinDigitsGo n n

/-- `format(n, '032b')`: binary digits left-padded with zeros to width 32. -/
def lengthHeader32 (n : ℕ) : List ℕ :=
  List.replicate (32 - (natToBinDigits n).length) 0 ++ natToBinDigits n

/-- Fuel-driven helper for `bitsToBytes` (the fuel starts at the list length). -/
def bitsToBytesGo : ℕ → List ℕ → List ℕ
  | 0, _ => []
  | _, [] => []
  | fuel + 1, b :: t => bitsToNat ((b :: t).take 8) :: bitsToBytesGo fuel ((b :: t).drop 8)

/-- `bytes(int(bits[i:i+8], 2) for i in range(0, len(bits), 8))`. -/
def bitsToBytes (l : List ℕ) : List ℕ := bitsToBytesGo l.length l

/-! ### SHA-256 (executable, byte-level) -/

/-- SHA-256 round constants (FIPS 180-4, in decimal). -/
def shaK : List ℕ :=
  [1116352408, 1899447441, 3049323471, 3921009573, 961987163, 1508970993,
   2453635748, 2870763221, 3624381080, 310598401, 607225278, 1426881987,
   1925078388, 2162078206, 2614888103, 3248222580, 3835390401, 4022224774,
   264347078, 604807628, 770255983, 1249150122, 1555081692, 1996064986,
   2554220882, 2821834349, 2952996808, 3210313671, 3336571891, 3584528711,
   113926993, 338241895, 666307205, 773529912, 1294757372, 1396182291,
   1695183700, 1986661051, 2177026350, 2456956037, 2730485921, 2820302411,
   3259730800, 3345764771, 3516065817, 3600352804, 4094571909, 275423344,
   430227734, 506948616, 659060556, 883997877, 958139571, 1322822218,
   1537002063, 1747873779, 1955562222, 2024104815, 2227730452, 2361852424,
   2428436474, 2756734187, 3204031479, 3329325298]

/-- SHA-256 initial hash state (in decimal). -/
def shaH0 : List ℕ :=
  [1779033703, 3144134277, 1013904242, 2773480762,
   1359893119, 2600822924, 528734635, 1541459225]

/-- Right rotation of a 32-bit word. -/
def rotr32 (r n : ℕ) : ℕ := w32 ((n >>> r) ||| (n <<< (32 - r)))

def bigSigma0 (x : ℕ) : ℕ := rotr32 2 x ^^^ rotr32 13 x ^^^ rotr32 22 x

def bigSigma1 (x : ℕ) : ℕ := rotr32 6 x ^^^ rotr32 11 x ^^^ rotr32 25 x

def smallSigma0 (x : ℕ) : ℕ := rotr32 7 x ^^^ rotr32 18 x ^^^ (x >>> 3)

def smallSigma1 (x : ℕ) : ℕ := rotr32 17 x ^^^ rotr32 19 x ^^^ (x >>> 10)

/-- `Ch(x,y,z)`; `~x` is `x XOR 0xffffffff` on 32-bit words. -/
def chOf (x y z : ℕ) : ℕ := (x &&& y) ^^^ ((x ^^^ 4294967295) &&& z)

def majOf (x y z : ℕ) : ℕ := (x &&& y) ^^^ (x &&& z) ^^^ (y &&& z)

/-- 4-byte big-endian group to a 32-bit word. -/
def bytesToWordBE (l : List ℕ) : ℕ := l.foldl (fun a b => 256 * a + b) 0

/-- The 4 big-endian bytes of a 32-bit word. -/
def wordToBytesBE (w : ℕ) : List ℕ := [(w >>> 24) % 256, (w >>> 16) % 256, (w >>> 8) % 256, w % 256]

def wordsToBytes : List ℕ → List ℕ
  | [] => []
  | w :: t => wordToBytesBE w ++ wordsToBytes t

/-- Fuel-driven chunking (the fuel starts at the list length). -/
def chunkGo (n : ℕ) : ℕ → List α → List (List α)
  | 0, _ => []
  | _, [] => []
  | fuel + 1, l => l.take n :: chunkGo n fuel (l.drop n)

/-- Split a list into consecutive groups of `n` elements. -/
def chunkList (n : ℕ) (l : List α) : List (List α) := chunkGo n l.length l

/-- One step of the SHA-256 message schedule extension. -/
def shaScheduleStep (acc : List ℕ) (t : ℕ) : List ℕ :=
  acc ++ [w32 (smallSigma1 (acc.getD (t + 14) 0) + acc.getD (t + 9) 0 +
               smallSigma0 (acc.getD (t + 1) 0) + acc.getD t 0)]

/-- Extend 16 message words to the 64 schedule words. -/
def shaSchedule (ws : List ℕ) : List ℕ := (List.range 48).foldl shaScheduleStep ws

/-- One round of the SHA-256 compression function on the `[a,b,c,d,e,f,g,h]` state. -/
def shaStep (st : List ℕ) (kw : ℕ × ℕ) : List ℕ :=
  let a := st.getD 0 0
  let b := st.getD 1 0
  let c := st.getD 2 0
  let d := st.getD 3 0
  let e := st.getD 4 0
  let ff := st.getD 5 0
  let gg := st.getD 6 0
  let hh := st.getD 7 0
  let t1 := w32 (hh + bigSigma1 e + chOf e ff gg + kw.1 + kw.2)
  let t2 := w32 (bigSigma0 a + majOf a b c)
  [w32 (t1 + t2), a, b, c, w32 (d + t1), e, ff, gg]

/-- Compress one 64-byte block into the running hash state. -/
def shaCompress (hs : List ℕ) (block : List ℕ) : List ℕ :=
  let ws := shaSchedule ((chunkList 4 block).map bytesToWordBE)
  let st := (shaK.zip ws).foldl shaStep hs
  (List.range 8).map (fun i => w32 (hs.getD i 0 + st.getD i 0))

/-- SHA-256 padding: `0x80`, zeros to 56 mod 64, 8-byte big-endian bit length. -/
def shaPad (msg : List ℕ) : List ℕ :=
  msg ++ 128 :: (List.replicate ((119 - msg.length % 64) % 64) 0 ++ beBytes 8 (8 * msg.length))

/-- SHA-256 of a byte string (`hashlib.sha256(msg).digest()`). -/
def sha256 (msg : List ℕ) : List ℕ :=
  wordsToBytes ((chunkList 64 (shaPad msg)).foldl shaCompress shaH0)

/-- Lowercase hexadecimal character of a value < 16. -/
def hexChar (n : ℕ) : Char := if n < 10 then Char.ofNat (48 + n) else Char.ofNat (87 + n)

def hexOfBytes : List ℕ → List Char
  | [] => []
  | b :: t => hexChar (b / 16) :: hexChar (b % 16) :: hexOfBytes t

/-- `hashlib.sha256(msg).hexdigest()` (lowercase hex of the digest). -/
def hexDigest (l : List ℕ) : String := String.mk (hexOfBytes l)

/-- ASCII bytes of a string (models `.encode()` for the ASCII inputs used here). -/
def strBytes (s : String) : List ℕ := s.data.map Char.toNat

/-! ### Key derivation (`watermark_processor.py`, `_get_seed_from_key`) -/

/-- `_get_seed_from_key` (lines 25-34): `int.from_bytes(sha256(user_key.encode()).digest()[:4],
byteorder='big')`.  Secrets are modelled as their byte sequences; the unused `image_hash`
parameter (the source ignores it, `combined = user_key`) is dropped. -/
def get_seed_from_key (user_key : List ℕ) : ℕ := fromBytesBE ((sha256 user_key).take 4)

/-- `hashlib.sha256(user_key.encode()).hexdigest()[:16]`, the inline expression the source
repeats in every record builder and in `verify_user_key`. -/
def key_hash_of (user_key : List ℕ) : String := (hexDigest (sha256 user_key)).take 16

/-- Spec side (§4.1), for the refinement comparison: `derive(secret)` returns
`(u32_from_big_endian(h[0..4]), lowercase_hex(h)[0..16])` with `h = SHA256(secret)`. -/
def spec_derive (secret : List ℕ) : ℕ × String :=
  (fromBytesBE ((sha256 secret).take 4), (hexDigest (sha256 secret)).take 16)

/-! ### Signature records (the `signature_data` dicts of the four modalities) -/

/-- The `signature_data` dict built by `_invisible_watermark` (lines 62-69). -/
structure SigInvisible where
  text : String
  timestamp : String
  dimensions : String
  protection_level : ℕ
  method : String
  key_hash : String
deriving DecidableEq

def build_invisible_record (text timestamp dimensions : String) (strength : ℕ)
    (user_key : List ℕ) : SigInvisible :=
  { text := text, timestamp := timestamp, dimensions := dimensions,
    protection_level := strength, method := "invisible", key_hash := key_hash_of user_key }

/-- The `signature_data` dict built by `_steganography_watermark` (lines 91-97);
`checksum` is `EncryptionService.generate_hash(text)`, a 16-hex-character SHA-256 prefix. -/
structure SigSteg where
  text : String
  timestamp : String
  method : String
  checksum : String
  key_hash : String
deriving DecidableEq

def build_steg_record (text timestamp : String) (user_key : List ℕ) : SigSteg :=
  { text := text, timestamp := timestamp, method := "steganography",
    checksum := (hexDigest (sha256 (strBytes text))).take 16,
    key_hash := key_hash_of user_key }

/-- The `signature_data` dict built by `_frequency_domain_watermark` (lines 120-126). -/
structure SigFrequency where
  text : String
  timestamp : String
  method : String
  strength : ℕ
  key_hash : String
deriving DecidableEq

def build_frequency_record (text timestamp : String) (strength : ℕ)
    (user_key : List ℕ) : SigFrequency :=
  { text := text, timestamp := timestamp, method := "frequency_domain",
    strength := strength, key_hash := key_hash_of user_key }

/-- The `metadata` dict of `_metadata_watermark` (lines 142-150); `token` abstracts
`EncryptionService.generate_token()` (a fresh `secrets.token_hex(16)`). -/
def metadata_sidecar (text timestamp : String) (strength : ℕ) (user_key : List ℕ)
    (token : String) : List (String × String) :=
  [("Copyright", text), ("Artist", text),
   ("Description", "Protected image - " ++ timestamp),
   ("Software", "ImageProtector"),
   ("Protection_Level", toString strength),
   ("KeyHash", key_hash_of user_key),
   ("Signature", token)]

/-- `strength_factor = strength / 100.0` (line 18), as an exact rational. -/
def strength_factor (s : ℕ) : ℚ := mkRat s 100

/-! ### Frequency-domain seeding (`embed_frequency_domain_with_key`, lines 63-66) -/

/-- Lines 64-65: `combined_seed = seed + hash(text) % 1000000` followed by
`np.random.seed(combined_seed % (2**32))`.  `h` abstracts the value of Python's
`hash(text)` (taken non-negative, as the source's `%` makes it). -/
def frequency_seed (seed h : ℕ) : ℕ := (seed + h % 1000000) % 4294967296

/-- Spec side (§4.6 step 3), for comparison: seed the PRNG with
SeedMaterial XOR low-32-bits-of-hash(text). -/
def spec_frequency_seed (seed h : ℕ) : ℕ := seed ^^^ (h % 4294967296)

/-- Line 66: `pattern = np.random.randn(*dct_coeffs.shape) * (strength / 100.0)`;
`g` abstracts the seeded Gaussian draw at flat position `k`. -/
def frequency_pattern (g : ℕ → ℚ) (strength : ℕ) (k : ℕ) : ℚ :=
  g k * (strength_factor strength)

/-! ### `verify_user_key` (`watermark_processor.py`, lines 421-430) -/

/-- The extracted record is modelled as an association list of string fields; the empty
list models a falsy `extracted_data` (`None` or `{}`), for which the source returns
`False` before ever looking for `key_hash`. -/
def verify_user_key (extracted : List (String × String)) (user_key : List ℕ) : Bool :=
  if extracted = [] then false
  else
    match extracted.lookup "key_hash" with
    | some v => v == key_hash_of user_key
    | none => true

/-! ### The metadata modality (`_metadata_watermark` / `_extract_metadata_watermark`) -/

abbrev Pix := ℕ × ℕ × ℕ

/-- A decoded image together with its EXIF dictionary (what PIL's `_getexif` exposes;
empty when the image carries no EXIF). -/
structure MetaImage where
  pixels : List Pix
  exif : List (String × String)
deriving DecidableEq

/-- `_metadata_watermark` (lines 140-159): the sidecar dict is built and hashed, but the
returned image is only `image.copy()` — no metadata is written (the source itself notes
that piexif would be needed).  The pair mirrors `(img_with_metadata, signature_hash)`,
with the hash input (the sidecar dict) standing in for its 16-hex-char hash. -/
def metadata_watermark (image : MetaImage) (text timestamp : String) (strength : ℕ)
    (user_key : List ℕ) (token : String) : MetaImage × List (String × String) :=
  (image, metadata_sidecar text timestamp strength user_key token)

/-- `_extract_metadata_watermark` (lines 407-419): returns the EXIF dictionary of the
image it is given. -/
def extract_metadata_watermark (image : MetaImage) : List (String × String) := image.exif

/-! ### Payload framing (`_prepare_binary_data`, lines 161-173) -/

/-- The framed payload for ciphertext bytes `ct`: `format(len(signature_binary), '032b')`
followed by `''.join(format(byte, '08b') for byte in ct)`.  The encryption step
(`self.encryption_service.encrypt(signature_json)`) is abstracted by handing the
function the ciphertext bytes it produced. -/
def prepare_binary_data (encrypted_signature : List ℕ) : List ℕ :=
  lengthHeader32 (bytesToBits encrypted_signature).length ++ bytesToBits encrypted_signature

/-! ### The spatial LSB pipeline (modality `invisible`) -/

/-- `(pixel_val & 0xFE) | bit_to_embed` on an 8-bit sample. -/
def setLSB (bit v : ℕ) : ℕ := 2 * (v / 2) + bit

/-- Write a payload bit into the LSB of the blue channel (index 2). -/
def writeBlue (bit : ℕ) (p : Pix) : Pix := (p.1, p.2.1, setLSB bit p.2.2)

/-- `img_array[i, j, 2] & 1`. -/
def blueLSB (p : Pix) : ℕ := p.2.2 % 2

/-- The loop of `embed_lsb_with_key` (`watermark_methods.py` lines 25-41) on the row-major
pixel list.  `k` is the pixel index — equal to the number of `np.random.random()` draws
made so far, since the loop draws exactly once per pixel while payload bits remain —
and `b` is the index of the next payload bit (`binary_index`). -/
def embed_lsb_go (u : ℕ → ℚ) (s : ℕ) (bits : List ℕ) : ℕ → ℕ → List Pix → List Pix
  | _, _, [] => []
  | k, b, p :: ps =>
    if b < bits.length then
      if u k < strength_factor s then
        writeBlue (bits.getD b 0) p :: embed_lsb_go u s bits (k + 1) (b + 1) ps
      else
        p :: embed_lsb_go u s bits (k + 1) b ps
    else p :: ps

/-- `embed_lsb_with_key(img_array, binary_data, strength, seed)` on a colour image;
the seed argument is replaced by the draw sequence `u` it seeds. -/
def embed_lsb_with_key (u : ℕ → ℚ) (img : List Pix) (binary_data : List ℕ)
    (strength : ℕ) : List Pix :=
  embed_lsb_go u strength binary_data 0 0 img

/-- The same loop on a single-channel (grayscale) image. -/
def embed_lsb_gray_go (u : ℕ → ℚ) (s : ℕ) (bits : List ℕ) : ℕ → ℕ → List ℕ → List ℕ
  | _, _, [] => []
  | k, b, v :: vs =>
    if b < bits.length then
      if u k < strength_factor s then
        setLSB (bits.getD b 0) v :: embed_lsb_gray_go u s bits (k + 1) (b + 1) vs
      else
        v :: embed_lsb_gray_go u s bits (k + 1) b vs
    else v :: vs

/-- `embed_lsb_with_key` on a grayscale image. -/
def embed_lsb_with_key_gray (u : ℕ → ℚ) (img : List ℕ) (binary_data : List ℕ)
    (strength : ℕ) : List ℕ :=
  embed_lsb_gray_go u strength binary_data 0 0 img

/-- Number of pixels among draw indices `[k, k+n)` whose draw passes the strength
check `np.random.random() < strength / 100.0`. -/
def selCount (u : ℕ → ℚ) (s : ℕ) : ℕ → ℕ → ℕ
  | _, 0 => 0
  | k, n + 1 => (if u k < strength_factor s then 1 else 0) + selCount u s (k + 1) n

/-- The `pixel_indices` list of `_extract_lsb_watermark` (lines 211-216): row-major
pixel indices whose draw passes the strength check. -/
def sel_indices (u : ℕ → ℚ) (s : ℕ) : ℕ → ℕ → List ℕ
  | _, 0 => []
  | k, n + 1 =>
    if u k < strength_factor s then k :: sel_indices u s (k + 1) n
    else sel_indices u s (k + 1) n

/-- The error outcomes of `_extract_lsb_watermark` (each `(None, message)` return). -/
inductive LsbErr
  | notEnoughPixels
  | invalidLength
  | lengthTooLarge
  | notEnoughForMessage
  | notAligned
  | decryptFailed
deriving DecidableEq

/-- The LSBs read at the first `n` selected pixel indices (the loops at lines 224-231
and 253-260, which read `img_array[i, j, 2] & 1` at `pixel_indices[idx]`). -/
def lsb_read_bits (u : ℕ → ℚ) (strength : ℕ) (img : List Pix) (n : ℕ) : List ℕ :=
  ((sel_indices u strength 0 img.length).take n).map (fun t => blueLSB (img.getD t (0, 0, 0)))

/-- The parsed 32-bit length prefix (`int(binary_data[:32], 2)`, line 235). -/
def lsb_msg_length (u : ℕ → ℚ) (strength : ℕ) (img : List Pix) : ℕ :=
  bitsToNat (lsb_read_bits u strength img 32)

/-- `_extract_lsb_watermark` (lines 197-283).  `dec` abstracts Fernet decryption composed
with `json.loads` (`none` for any failure, the source's `except` branch). -/
def extract_lsb_watermark (dec : List ℕ → Option SigInvisible) (u : ℕ → ℚ) (strength : ℕ)
    (img : List Pix) : Except LsbErr SigInvisible :=
  if (sel_indices u strength 0 img.length).length < 32 then .error .notEnoughPixels
  else if lsb_msg_length u strength img = 0 then .error .invalidLength
  else if 100000 < lsb_msg_length u strength img then .error .lengthTooLarge
  else if (sel_indices u strength 0 img.length).length
      < 32 + lsb_msg_length u strength img then .error .notEnoughForMessage
  else if ¬ (((lsb_read_bits u strength img (32 + lsb_msg_length u strength img)).drop 32).take
      (lsb_msg_length u strength img)).length % 8 = 0 then .error .notAligned
  else
    match dec (bitsToBytes
        (((lsb_read_bits u strength img (32 + lsb_msg_length u strength img)).drop 32).take
          (lsb_msg_length u strength img))) with
    | some record => .ok record
    | none => .error .decryptFailed

/-- `_invisible_watermark` (lines 56-84): build the signature record, frame the encrypted
payload, embed it with the key-derived draw sequence.  `enc` abstracts `json.dumps`
composed with Fernet encryption; the returned 16-hex-char signature hash is not
modelled (no claim mentions it). -/
def invisible_watermark (enc : SigInvisible → List ℕ) (u : ℕ → ℚ) (img : List Pix)
    (text timestamp dimensions : String) (user_key : List ℕ) (strength : ℕ) : List Pix :=
  embed_lsb_with_key u img
    (prepare_binary_data
      (enc (build_invisible_record text timestamp dimensions strength user_key)))
    strength

/-- Modelled from the Fernet specification (the third-party `cryptography.fernet` layer
behind `EncryptionService.encrypt`): a token is the version byte 0x80, the 64-bit
big-endian timestamp, the fresh random 16-byte IV, the AES-CBC ciphertext, and the
32-byte HMAC tag.  The URL-safe base64 encoding the library applies last is injective
and omitted; `ct` and `tag` stay abstract byte lists. -/
def fernet_token (time : ℕ) (iv ct tag : List ℕ) : List ℕ :=
  128 :: (beBytes 8 time ++ (iv ++ (ct ++ tag)))

/-! ### Frame conditions for `embed_lsb_with_key` (C10) -/

/-- Count of positions where two lists differ. -/
def countDiff {α : Type} [DecidableEq α] : List α → List α → ℕ
  | p :: ps, q :: qs => (if p = q then 0 else 1) + countDiff ps qs
  | _, _ => 0

/-- Decidable equality of extraction outcomes. -/
instance {e a : Type} [DecidableEq e] [DecidableEq a] : DecidableEq (Except e a) := fun x y =>
  match x, y with
  | .ok v, .ok w =>
    if h : v = w then .isTrue (congrArg Except.ok h)
    else .isFalse (fun hc => h (Except.ok.inj hc))
  | .error v, .error w =>
    if h : v = w then .isTrue (congrArg Except.error h)
    else .isFalse (fun hc => h (Except.error.inj hc))
  | .ok _, .error _ => .isFalse (fun hc => Except.noConfusion hc)
  | .error _, .ok _ => .isFalse (fun hc => Except.noConfusion hc)

/-! ### The redundant LSB pipeline (modality `steganography`) -/

/-- `redundancy = max(1, strength // 25)` (`watermark_processor.py` lines 101 and 185). -/
def steg_redundancy (strength : ℕ) : ℕ := max 1 (strength / 25)

/-- `redundant_binary = ''.join(bit * redundancy for bit in binary_data)`
(`watermark_methods.py` line 99). -/
def expand_redundancy (r : ℕ) : List ℕ → List ℕ
  | [] => []
  | b :: t => List.replicate r b ++ expand_redundancy r t

/-- Write a bit into the LSB of channel `c` (0 = red, 1 = green, otherwise blue; the
source draws `c` from `randint(0, 3)`, so only 0, 1, 2 occur). -/
def write_channel (c bit : ℕ) (p : Pix) : Pix :=
  if c = 0 then (setLSB bit p.1, p.2.1, p.2.2)
  else if c = 1 then (p.1, setLSB bit p.2.1, p.2.2)
  else (p.1, p.2.1, setLSB bit p.2.2)

/-- `img_array[i, j, channel] & 1`. -/
def read_channel (c : ℕ) (p : Pix) : ℕ :=
  if c = 0 then p.1 % 2 else if c = 1 then p.2.1 % 2 else p.2.2 % 2

/-- The loop of `embed_with_redundancy_and_key` (`watermark_methods.py` lines 108-122):
one redundant bit per pixel in row-major order, the channel given by the pre-generated
`channel_pattern` (`chan k` abstracts draw `k` of the seeded `randint(0, 3)` sequence);
pixels beyond the redundant payload stay untouched. -/
def embed_redundancy_go (chan : ℕ → ℕ) (rbits : List ℕ) : ℕ → List Pix → List Pix
  | _, [] => []
  | k, p :: ps =>
    if k < rbits.length then
      write_channel (chan k) (rbits.getD k 0) p :: embed_redundancy_go chan rbits (k + 1) ps
    else p :: ps

/-- `embed_with_redundancy_and_key(img_array, binary_data, redundancy, seed)`; the seed
argument is replaced by the channel-draw sequence it seeds. -/
def embed_with_redundancy_and_key (chan : ℕ → ℕ) (img : List Pix) (binary_data : List ℕ)
    (redundancy : ℕ) : List Pix :=
  embed_redundancy_go chan (expand_redundancy redundancy binary_data) 0 img

/-- The bit-collection loops of `_extract_steganography_watermark` (lines 304-320 and
350-365): the LSB of channel `chan k` of pixel `k`, for the first `min n |pixels|`
pixels (the extract loop re-draws `randint(0, 3)` once per visited pixel, mirroring the
embedder's pattern; the re-seeding at line 346 restarts the same sequence). -/
def extract_bits_go (chan : ℕ → ℕ) : ℕ → ℕ → List Pix → List ℕ
  | _, 0, _ => []
  | _, _, [] => []
  | k, n + 1, p :: ps => read_channel (chan k) p :: extract_bits_go chan (k + 1) n ps

/-- Majority vote over one redundancy group (lines 326-329 and 376-378):
`ones = count('1')`, `zeros = len(group) - ones`, `'1' if ones > zeros else '0'`. -/
def majority_bit (g : List ℕ) : ℕ :=
  if g.length - g.count 1 < g.count 1 then 1 else 0

/-- The redundancy-decoding loop (lines 370-378), fuel-driven on the list length
(`r = 0` cannot occur in the source, where `r = max(1, …)`). -/
def decode_redundancy_go : ℕ → ℕ → List ℕ → List ℕ
  | 0, _, _ => []
  | _, _, [] => []
  | fuel + 1, r, x :: xs =>
    majority_bit ((x :: xs).take r) :: decode_redundancy_go fuel r ((x :: xs).drop r)

/-- `for i in range(0, len(extracted_bits), r): … majority …`. -/
def decode_redundancy (r : ℕ) (l : List ℕ) : List ℕ := decode_redundancy_go l.length r l

/-- Spec side (§4.5), for comparison: "decode each block of r bits by majority vote
(ties resolved to 0)" — blocks of `r`, `1` iff strictly more ones than zeros. -/
def spec_majority (g : List ℕ) : ℕ := if g.count 0 < g.count 1 then 1 else 0

/-- The error outcomes of `_extract_steganography_watermark`. -/
inductive StegErr
  | invalidLength
  | notEnoughPixels
  | notAligned
  | decryptFailed
deriving DecidableEq

/-- Phase one of `_extract_steganography_watermark` (lines 299-329): majority-decode the
length header from the first `32·r` extracted bits, group by group
(`extracted_bits[i:i+r]`; short or empty slices still vote, yielding 0). -/
def steg_header_bits (chan : ℕ → ℕ) (r : ℕ) (img : List Pix) : List ℕ :=
  (List.range 32).map (fun i =>
    majority_bit (((extract_bits_go chan 0 (32 * r) img).drop (i * r)).take r))

/-- `int(length_bits, 2)` (line 333). -/
def steg_msg_length (chan : ℕ → ℕ) (r : ℕ) (img : List Pix) : ℕ :=
  bitsToNat (steg_header_bits chan r img)

/-- `_extract_steganography_watermark` (lines 285-399).  `dec` abstracts Fernet
decryption composed with `json.loads`. -/
def extract_steganography_watermark (dec : List ℕ → Option SigSteg) (chan : ℕ → ℕ)
    (redundancy : ℕ) (img : List Pix) : Except StegErr SigSteg :=
  if steg_msg_length chan redundancy img = 0 then .error .invalidLength
  else if 100000 < steg_msg_length chan redundancy img then .error .invalidLength
  else if (extract_bits_go chan 0 ((32 + steg_msg_length chan redundancy img) * redundancy)
      img).length < (32 + steg_msg_length chan redundancy img) * redundancy then
    .error .notEnoughPixels
  else if ¬ (((decode_redundancy redundancy (extract_bits_go chan 0
      ((32 + steg_msg_length chan redundancy img) * redundancy) img)).drop 32).take
      (steg_msg_length chan redundancy img)).length % 8 = 0 then .error .notAligned
  else
    match dec (bitsToBytes (((decode_redundancy redundancy (extract_bits_go chan 0
        ((32 + steg_msg_length chan redundancy img) * redundancy) img)).drop 32).take
        (steg_msg_length chan redundancy img))) with
    | some record => .ok record
    | none => .error .decryptFailed

/-- `_steganography_watermark` (lines 86-113): build the robust signature record, frame
the encrypted payload, embed it with redundancy `max(1, strength // 25)`. -/
def steganography_watermark (enc : SigSteg → List ℕ) (chan : ℕ → ℕ) (img : List Pix)
    (text timestamp : String) (user_key : List ℕ) (strength : ℕ) : List Pix :=
  embed_with_redundancy_and_key chan img
    (prepare_binary_data (enc (build_steg_record text timestamp user_key)))
    (steg_redundancy strength)

/-- Toggle the LSB of channel `c` of a pixel (the attack model of C6). -/
def flip_channel (c : ℕ) (p : Pix) : Pix :=
  if c = 0 then (setLSB (1 - p.1 % 2) p.1, p.2.1, p.2.2)
  else if c = 1 then (p.1, setLSB (1 - p.2.1 % 2) p.2.1, p.2.2)
  else (p.1, p.2.1, setLSB (1 - p.2.2 % 2) p.2.2)

/-- Flip, at every pixel position in `F`, the LSB of the channel the embedder used
there (`chan k`). -/
def flip_image (F : Finset ℕ) (chan : ℕ → ℕ) : ℕ → List Pix → List Pix
  | _, [] => []
  | k, p :: ps =>
    (if k ∈ F then flip_channel (chan k) p else p) :: flip_image F chan (k + 1) ps

/-! ### Concrete instances used by witnesses and counterexamples -/

/-- A draw sequence whose every draw is 0: every positive-strength check passes. -/
def uZero : ℕ → ℚ := fun _ => 0

/-- A draw sequence whose every draw is 9/10: every strength-50 check fails. -/
def uHigh : ℕ → ℚ := fun _ => mkRat 9 10

/-- Concrete stand-in for the encryption step in witnesses: the ciphertext is the text
bytes of the record. -/
def c1wEnc : SigInvisible → List ℕ := fun r => strBytes r.text

/-- Concrete decryption, inverse to `c1wEnc` on records carrying these fixed fields. -/
def c1wDec : List ℕ → Option SigInvisible := fun l =>
  some (build_invisible_record (String.mk (l.map Char.ofNat)) "2025-01-01T00:00:00" "4x12" 50
    (strBytes "k"))

/-- The record embedded by the C1 witness. -/
def c1wRec : SigInvisible :=
  build_invisible_record "hi" "2025-01-01T00:00:00" "4x12" 50 (strBytes "k")

/-- Concrete channel sequence: always the blue channel. -/
def chanTwo : ℕ → ℕ := fun _ => 2

def c6wEnc : SigSteg → List ℕ := fun r => strBytes r.text

def c6wDec : List ℕ → Option SigSteg := fun l =>
  some (build_steg_record (String.mk (l.map Char.ofNat)) "ts" (strBytes "k"))

/-- The record embedded in the C6 scenarios. -/
def c6wRec : SigSteg := build_steg_record "A" "ts" (strBytes "k")

/-! ### Proofs -/

/-! ### Bounds on the derived seed -/

lemma wordToBytesBE_lt {w b : ℕ} (hb : b ∈ wordToBytesBE w) : b < 256 := by
  have h256 : (0 : ℕ) < 256 := by norm_num
  simp only [wordToBytesBE, List.mem_cons, List.not_mem_nil, or_false] at hb
  rcases hb with h | h | h | h <;> subst h <;> exact Nat.mod_lt _ h256

lemma wordsToBytes_lt : ∀ (ws : List ℕ), ∀ b ∈ wordsToBytes ws, b < 256
  | [], b, hb => by simp [wordsToBytes] at hb
  | w :: t, b, hb => by
    simp only [wordsToBytes, List.mem_append] at hb
    rcases hb with h | h
    · exact wordToBytesBE_lt h
    · exact wordsToBytes_lt t b h

lemma sha256_byte_lt {m : List ℕ} : ∀ b ∈ sha256 m, b < 256 := by
  intro b hb
  exact wordsToBytes_lt _ b hb

lemma foldl_base256_lt : ∀ (l : List ℕ) (a : ℕ), (∀ b ∈ l, b < 256) →
    l.foldl (fun a b => 256 * a + b) a < (a + 1) * 256 ^ l.length
  | [], a, _ => by simp
  | b :: t, a, h => by
    have hb : b < 256 := h b (List.mem_cons_self b t)
    have ht : ∀ x ∈ t, x < 256 := fun x hx => h x (List.mem_cons_of_mem b hx)
    have := foldl_base256_lt t (256 * a + b) ht
    calc (b :: t).foldl (fun a b => 256 * a + b) a
        = t.foldl (fun a b => 256 * a + b) (256 * a + b) := rfl
      _ < (256 * a + b + 1) * 256 ^ t.length := this
      _ ≤ ((a + 1) * 256) * 256 ^ t.length := by
          have : 256 * a + b + 1 ≤ (a + 1) * 256 := by omega
          exact Nat.mul_le_mul_right _ this
      _ = (a + 1) * 256 ^ (b :: t).length := by
          simp [List.length_cons, pow_succ]; ring

lemma fromBytesBE_lt {l : List ℕ} (h : ∀ b ∈ l, b < 256) :
    fromBytesBE l < 256 ^ l.length := by
  have h1 := foldl_base256_lt l 0 h
  simp [fromBytesBE] at h1 ⊢
  exact h1

/-- C4 helper: the derived seed fits in an unsigned 32-bit integer. -/
lemma get_seed_from_key_lt (user_key : List ℕ) : get_seed_from_key user_key < 4294967296 := by
  have hbytes : ∀ b ∈ (sha256 user_key).take 4, b < 256 := by
    intro b hb
    exact sha256_byte_lt b (List.mem_of_mem_take hb)
  have h1 : fromBytesBE ((sha256 user_key).take 4) < 256 ^ ((sha256 user_key).take 4).length :=
    fromBytesBE_lt hbytes
  have h2 : ((sha256 user_key).take 4).length ≤ 4 := by
    simp [List.length_take]
  calc get_seed_from_key user_key < 256 ^ ((sha256 user_key).take 4).length := h1
    _ ≤ 256 ^ 4 := Nat.pow_le_pow_right (by norm_num) h2
    _ = 4294967296 := by norm_num

/-- C4: key derivation is a pure function of the secret; the seed is the big-endian
32-bit integer from the first four bytes of SHA-256(secret), the hint is the first
16 lowercase hex characters of SHA-256(secret), and the hint is the `key_hash`
(resp. `KeyHash`) value committed into every signature record. -/
theorem c4_key_derivation (secret : List ℕ) :
    spec_derive secret = (get_seed_from_key secret, key_hash_of secret) ∧
    get_seed_from_key secret < 4294967296 ∧
    (∀ text timestamp dimensions strength,
      (build_invisible_record text timestamp dimensions strength secret).key_hash
        = (spec_derive secret).2) ∧
    (∀ text timestamp,
      (build_steg_record text timestamp secret).key_hash = (spec_derive secret).2) ∧
    (∀ text timestamp strength,
      (build_frequency_record text timestamp strength secret).key_hash
        = (spec_derive secret).2) ∧
    (∀ text timestamp strength token,
      (metadata_sidecar text timestamp strength secret token).lookup "KeyHash"
        = some (spec_derive secret).2) := by
  refine ⟨rfl, get_seed_from_key_lt secret, fun _ _ _ _ => rfl, fun _ _ => rfl,
    fun _ _ _ => rfl, fun _ _ _ _ => ?_⟩
  simp [metadata_sidecar, List.lookup, spec_derive, key_hash_of]

lemma strength_factor_eq (s : ℕ) : strength_factor s = (s : ℚ) / 100 := by
  rw [strength_factor, Rat.mkRat_eq_div]
  push_cast
  rfl

/-- C7 counterexample: with SeedMaterial 1 and hash value 1 the source seeds the PRNG
with `(1 + 1 % 1000000) % 2^32 = 2`, whereas the claimed formula gives `1 XOR 1 = 0`. -/
theorem c7_counterexample :
    frequency_seed 1 1 = 2 ∧ spec_frequency_seed 1 1 = 0 ∧
    frequency_seed 1 1 ≠ spec_frequency_seed 1 1 := by decide

/-- C7 amended: the frequency-domain PRNG is seeded with
`(SeedMaterial + (hash(text) mod 10^6)) mod 2^32` — addition, not XOR — and the
Gaussian pattern is scaled by `strength/100`. -/
theorem c7_frequency_seed_amended (seed h strength k : ℕ) (g : ℕ → ℚ) :
    frequency_seed seed h = (seed + h % 1000000) % 4294967296 ∧
    frequency_seed seed h < 4294967296 ∧
    frequency_pattern g strength k = g k * ((strength : ℚ) / 100) :=
  ⟨rfl, Nat.mod_lt _ (by norm_num), by rw [frequency_pattern, strength_factor_eq]⟩

/-- C9 counterexample: the empty record lacks a `key_hash` field, yet `verify_user_key`
returns `false` (the source's falsy-input guard), where the claim demands `true`. -/
theorem c9_counterexample :
    (List.lookup "key_hash" ([] : List (String × String)) = none) ∧
    verify_user_key [] (strBytes "k") = false :=
  ⟨rfl, rfl⟩

/-- C9 amended: for every *nonempty* extracted record, `verify_user_key` returns true
iff the record's `key_hash` equals the first 16 hex characters of SHA-256(secret), and
returns true when the record lacks a `key_hash`; for a falsy (empty) record it
returns false. -/
theorem c9_verify_key_amended (rec : List (String × String)) (key : List ℕ)
    (hne : rec ≠ []) :
    (∀ v, rec.lookup "key_hash" = some v →
      (verify_user_key rec key = true ↔ v = key_hash_of key)) ∧
    (rec.lookup "key_hash" = none → verify_user_key rec key = true) := by
  constructor
  · intro v hv
    simp [verify_user_key, hne, hv]
  · intro hv
    simp [verify_user_key, hne, hv]

/-- C9 witness: a nonempty record without `key_hash` verifies as true. -/
theorem c9_verify_key_witness :
    verify_user_key [("text", "hi")] (strBytes "k") = true :=
  (c9_verify_key_amended [("text", "hi")] (strBytes "k") (by simp)).2 (by simp [List.lookup])


/-- C8: the sidecar built by `_metadata_watermark` does contain the text and the KeyHash,
but it is never attached to the image — apply returns a bare copy, so extraction on the
result yields an empty record with no `KeyHash` (and no text), not the sidecar. -/
theorem c8_metadata_not_embedded :
    (metadata_watermark ⟨[(1, 2, 3)], []⟩ "t" "ts" 50 (strBytes "k") "tok").1.pixels
      = [(1, 2, 3)] ∧
    ((metadata_watermark ⟨[(1, 2, 3)], []⟩ "t" "ts" 50 (strBytes "k") "tok").2).lookup "KeyHash"
      = some (key_hash_of (strBytes "k")) ∧
    ((metadata_watermark ⟨[(1, 2, 3)], []⟩ "t" "ts" 50 (strBytes "k") "tok").2).lookup "Copyright"
      = some "t" ∧
    extract_metadata_watermark
      (metadata_watermark ⟨[(1, 2, 3)], []⟩ "t" "ts" 50 (strBytes "k") "tok").1 = [] ∧
    (extract_metadata_watermark
      (metadata_watermark ⟨[(1, 2, 3)], []⟩ "t" "ts" 50 (strBytes "k") "tok").1).lookup "KeyHash"
      = none := by
  refine ⟨rfl, ?_, ?_, rfl, rfl⟩ <;>
    simp [metadata_watermark, metadata_sidecar, List.lookup]

/-! ### Bit-level lemmas -/

lemma natToBinDigitsGo_irrel : ∀ (f1 f2 n : ℕ), n ≤ f1 → n ≤ f2 →
    natToBinDigitsGo f1 n = natToBinDigitsGo f2 n
  | 0, f2, n, h1, h2 => by
    have hn : n = 0 := by omega
    subst hn
    cases f2 <;> simp [natToBinDigitsGo]
  | f1 + 1, f2, n, h1, h2 => by
    cases f2 with
    | zero =>
      have hn : n = 0 := by omega
      subst hn
      simp [natToBinDigitsGo]
    | succ f2 =>
      by_cases hn : n < 2
      · simp [natToBinDigitsGo, hn]
      · simp only [natToBinDigitsGo, hn, if_false]
        rw [natToBinDigitsGo_irrel f1 f2 (n / 2) (by omega) (by omega)]

lemma natToBinDigits_eq (n : ℕ) :
    natToBinDigits n = if n < 2 then [n] else natToBinDigits (n / 2) ++ [n % 2] := by
  by_cases hn : n < 2
  · rw [if_pos hn, natToBinDigits]
    interval_cases n <;> rfl
  · rw [if_neg hn, natToBinDigits, natToBinDigits]
    obtain ⟨m, rfl⟩ : ∃ m, n = m + 1 := ⟨n - 1, by omega⟩
    simp only [natToBinDigitsGo, hn, if_false]
    rw [natToBinDigitsGo_irrel m ((m + 1) / 2) ((m + 1) / 2) (by omega) (le_refl _)]

lemma bitsToBytesGo_irrel : ∀ (f1 f2 : ℕ) (l : List ℕ), l.length ≤ f1 → l.length ≤ f2 →
    bitsToBytesGo f1 l = bitsToBytesGo f2 l
  | 0, f2, l, h1, h2 => by
    have hl : l = [] := List.eq_nil_of_length_eq_zero (by omega)
    subst hl
    cases f2 <;> rfl
  | f1 + 1, f2, l, h1, h2 => by
    cases l with
    | nil => cases f2 <;> rfl
    | cons b t =>
      cases f2 with
      | zero => simp at h2
      | succ f2 =>
        simp only [bitsToBytesGo]
        have hd : ((b :: t).drop 8).length = t.length - 7 := by
          simp [List.length_drop]
        have h1' : t.length + 1 ≤ f1 + 1 := by simpa using h1
        have h2' : t.length + 1 ≤ f2 + 1 := by simpa using h2
        rw [bitsToBytesGo_irrel f1 f2 ((b :: t).drop 8)
          (by rw [hd]; omega) (by rw [hd]; omega)]

lemma bitsToBytes_eq (l : List ℕ) :
    bitsToBytes l = if l = [] then [] else bitsToNat (l.take 8) :: bitsToBytes (l.drop 8) := by
  cases l with
  | nil => rfl
  | cons b t =>
    rw [if_neg (by simp)]
    show bitsToBytesGo (t.length + 1) (b :: t) = _
    simp only [bitsToBytesGo]
    have hd : ((b :: t).drop 8).length = t.length - 7 := by
      simp [List.length_drop]
    rw [bitsToBytesGo_irrel t.length ((b :: t).drop 8).length ((b :: t).drop 8)
      (by rw [hd]; omega) (le_refl _)]
    rfl

lemma natToBinDigits_le_one (n : ℕ) : ∀ x ∈ natToBinDigits n, x ≤ 1 := by
  induction n using Nat.strong_induction_on with
  | _ n ih =>
    intro x hx
    rw [natToBinDigits_eq] at hx
    split at hx
    · next h => simp only [List.mem_singleton] at hx; omega
    · next h =>
      rcases List.mem_append.mp hx with h1 | h1
      · exact ih (n / 2) (Nat.div_lt_self (by omega) (by omega)) x h1
      · simp only [List.mem_singleton] at h1; omega

lemma bitsToNat_append_bit (l : List ℕ) (b : ℕ) :
    bitsToNat (l ++ [b]) = 2 * bitsToNat l + b := by
  simp [bitsToNat, List.foldl_append]

lemma bitsToNat_natToBinDigits (n : ℕ) : bitsToNat (natToBinDigits n) = n := by
  induction n using Nat.strong_induction_on with
  | _ n ih =>
    rw [natToBinDigits_eq]
    split
    · next h => simp [bitsToNat]
    · next h =>
      rw [bitsToNat_append_bit, ih (n / 2) (Nat.div_lt_self (by omega) (by omega))]
      omega

lemma foldl_bits_replicate_zero : ∀ m, (List.replicate m 0).foldl (fun a b => 2 * a + b) 0 = 0
  | 0 => rfl
  | m + 1 => by
    simp only [List.replicate_succ, List.foldl_cons]
    simpa using foldl_bits_replicate_zero m

lemma bitsToNat_replicate_zero_append (m : ℕ) (l : List ℕ) :
    bitsToNat (List.replicate m 0 ++ l) = bitsToNat l := by
  simp [bitsToNat, List.foldl_append, foldl_bits_replicate_zero]

lemma natToBinDigits_length_le : ∀ (n k : ℕ), 1 ≤ k → n < 2 ^ k →
    (natToBinDigits n).length ≤ k := by
  intro n
  induction n using Nat.strong_induction_on with
  | _ n ih =>
    intro k hk hn
    rw [natToBinDigits_eq]
    split
    · next h => simpa using hk
    · next h =>
      match k, hk with
      | 1, _ => exact absurd (by simpa using hn) h
      | k2 + 2, _ =>
        have hdiv : n / 2 < 2 ^ (k2 + 1) := by
          rw [Nat.div_lt_iff_lt_mul (by norm_num : (0:ℕ) < 2)]
          calc n < 2 ^ (k2 + 2) := hn
            _ = 2 ^ (k2 + 1) * 2 := by rw [pow_succ]
        have h1 := ih (n / 2) (Nat.div_lt_self (by omega) (by omega)) (k2 + 1) (by omega) hdiv
        simp only [List.length_append, List.length_singleton]
        omega

lemma lengthHeader32_length {n : ℕ} (hn : n < 2 ^ 32) : (lengthHeader32 n).length = 32 := by
  have h := natToBinDigits_length_le n 32 (by norm_num) hn
  simp only [lengthHeader32, List.length_append, List.length_replicate]
  omega

lemma bitsToNat_lengthHeader32 (n : ℕ) : bitsToNat (lengthHeader32 n) = n := by
  rw [lengthHeader32, bitsToNat_replicate_zero_append, bitsToNat_natToBinDigits]

lemma lengthHeader32_le_one (n : ℕ) : ∀ x ∈ lengthHeader32 n, x ≤ 1 := by
  intro x hx
  rcases List.mem_append.mp hx with h | h
  · rw [List.eq_of_mem_replicate h]; omega
  · exact natToBinDigits_le_one n x h

lemma byteToBits_length (b : ℕ) : (byteToBits b).length = 8 := by simp [byteToBits]

lemma byteToBits_le_one (b : ℕ) : ∀ x ∈ byteToBits b, x ≤ 1 := by
  intro x hx
  simp only [byteToBits, List.mem_map, List.mem_range] at hx
  obtain ⟨i, _, hi⟩ := hx
  have h2 : (b >>> (7 - i)) % 2 < 2 := Nat.mod_lt _ (by norm_num)
  omega

lemma bytesToBits_length : ∀ l : List ℕ, (bytesToBits l).length = 8 * l.length
  | [] => rfl
  | b :: t => by
    simp only [bytesToBits, List.length_append, byteToBits_length, bytesToBits_length t,
      List.length_cons]
    ring

lemma bytesToBits_le_one : ∀ l : List ℕ, ∀ x ∈ bytesToBits l, x ≤ 1
  | [] => by simp [bytesToBits]
  | b :: t => by
    intro x hx
    rcases List.mem_append.mp hx with h | h
    · exact byteToBits_le_one b x h
    · exact bytesToBits_le_one t x h

lemma prepare_binary_data_le_one (ct : List ℕ) : ∀ x ∈ prepare_binary_data ct, x ≤ 1 := by
  intro x hx
  rcases List.mem_append.mp hx with h | h
  · exact lengthHeader32_le_one _ x h
  · exact bytesToBits_le_one ct x h

lemma prepare_binary_data_length {ct : List ℕ} (h : 8 * ct.length < 2 ^ 32) :
    (prepare_binary_data ct).length = 32 + 8 * ct.length := by
  have hb := bytesToBits_length ct
  have hh : (lengthHeader32 (bytesToBits ct).length).length = 32 :=
    lengthHeader32_length (by rw [hb]; exact h)
  rw [hb] at hh
  simp [prepare_binary_data, List.length_append, hb, hh]

lemma bitsToNat_byteToBits : ∀ b, b < 256 → bitsToNat (byteToBits b) = b := by decide

lemma bitsToBytes_cons8 {l1 : List ℕ} (h8 : l1.length = 8) (l2 : List ℕ) :
    bitsToBytes (l1 ++ l2) = bitsToNat l1 :: bitsToBytes l2 := by
  rw [bitsToBytes_eq]
  have hne : ¬ l1 ++ l2 = [] := by
    intro hc
    have := congrArg List.length hc
    simp [h8] at this
  rw [if_neg hne]
  congr 1
  · congr 1
    rw [← h8, List.take_left]
  · congr 1
    rw [← h8, List.drop_left]

lemma bitsToBytes_bytesToBits : ∀ (l : List ℕ), (∀ b ∈ l, b < 256) →
    bitsToBytes (bytesToBits l) = l
  | [], _ => by rw [bytesToBits, bitsToBytes_eq]; simp
  | b :: t, h => by
    have hb : b < 256 := h b (List.mem_cons_self b t)
    have ht : ∀ x ∈ t, x < 256 := fun x hx => h x (List.mem_cons_of_mem b hx)
    show bitsToBytes (byteToBits b ++ bytesToBits t) = b :: t
    rw [bitsToBytes_cons8 (byteToBits_length b), bitsToNat_byteToBits b hb,
      bitsToBytes_bytesToBits t ht]

/-! ### Lemmas about the LSB embed loop and pixel selection -/

lemma list_ext_getD {α : Type} (d : α) {l1 l2 : List α} (hlen : l1.length = l2.length)
    (h : ∀ m, m < l1.length → l1.getD m d = l2.getD m d) : l1 = l2 := by
  apply List.ext_getElem hlen
  intro i h1 h2
  have h3 := h i h1
  rwa [List.getD_eq_getElem _ _ h1, List.getD_eq_getElem _ _ h2] at h3

lemma getD_mem {α : Type} (l : List α) (m : ℕ) (d : α) (h : m < l.length) :
    l.getD m d ∈ l := by
  rw [List.getD_eq_getElem _ _ h]
  exact List.getElem_mem h

lemma setLSB_mod_two {bit : ℕ} (v : ℕ) (h : bit ≤ 1) : setLSB bit v % 2 = bit := by
  simp only [setLSB, Nat.mul_add_mod]
  omega

lemma setLSB_div_two (bit v : ℕ) (h : bit ≤ 1) : setLSB bit v / 2 = v / 2 := by
  rw [setLSB, Nat.mul_add_div (by norm_num : (0:ℕ) < 2)]
  omega

lemma setLSB_lt_256 {bit v : ℕ} (hb : bit ≤ 1) (hv : v < 256) : setLSB bit v < 256 := by
  simp only [setLSB]
  omega

lemma blueLSB_writeBlue {bit : ℕ} (p : Pix) (h : bit ≤ 1) : blueLSB (writeBlue bit p) = bit := by
  simp [blueLSB, writeBlue, setLSB_mod_two _ h]

lemma selCount_succ (u : ℕ → ℚ) (s k n : ℕ) :
    selCount u s k (n + 1) = (if u k < strength_factor s then 1 else 0) + selCount u s (k + 1) n := rfl

lemma selCount_add (u : ℕ → ℚ) (s : ℕ) : ∀ (a k b : ℕ),
    selCount u s k (a + b) = selCount u s k a + selCount u s (k + a) b
  | 0, k, b => by simp [selCount]
  | a + 1, k, b => by
    have h1 : a + 1 + b = (a + b) + 1 := by omega
    rw [h1, selCount_succ, selCount_add u s a (k + 1) b, selCount_succ]
    have h2 : k + 1 + a = k + (a + 1) := by omega
    rw [h2]
    omega

lemma selCount_lt_total (u : ℕ → ℚ) (s : ℕ) {k t n : ℕ} (ht : t < n)
    (hu : u (k + t) < strength_factor s) : selCount u s k t < selCount u s k n := by
  have h1 : n = t + (1 + (n - t - 1)) := by omega
  rw [h1, selCount_add u s t k (1 + (n - t - 1))]
  have h2 : selCount u s (k + t) (1 + (n - t - 1)) ≥ 1 := by
    rw [show 1 + (n - t - 1) = (n - t - 1) + 1 from by omega]
    rw [selCount_succ]
    rw [if_pos hu]  -- hmm, selCount_succ peels index k+t, that is exactly u (k+t)
    omega
  omega

lemma embed_lsb_go_length (u : ℕ → ℚ) (s : ℕ) (bits : List ℕ) :
    ∀ (ps : List Pix) (k b : ℕ), (embed_lsb_go u s bits k b ps).length = ps.length
  | [], _, _ => rfl
  | p :: ps, k, b => by
    by_cases hb : b < bits.length
    · by_cases hu : u k < strength_factor s
      · simp [embed_lsb_go, hb, hu, embed_lsb_go_length u s bits ps (k + 1) (b + 1)]
      · simp [embed_lsb_go, hb, hu, embed_lsb_go_length u s bits ps (k + 1) b]
    · simp [embed_lsb_go, hb]

/-- Pointwise description of the embed loop: pixel `k + t` is overwritten exactly when
its own draw passes the strength check and the bit index reached there —
`b` plus the number of selected pixels strictly before it — is still within the payload. -/
lemma embed_lsb_go_getD (u : ℕ → ℚ) (s : ℕ) (bits : List ℕ) (d : Pix) :
    ∀ (ps : List Pix) (k b t : ℕ), t < ps.length →
    (embed_lsb_go u s bits k b ps).getD t d =
      if b + selCount u s k t < bits.length ∧ u (k + t) < strength_factor s
      then writeBlue (bits.getD (b + selCount u s k t) 0) (ps.getD t d)
      else ps.getD t d
  | [], k, b, t, ht => by simp at ht
  | p :: ps, k, b, t, ht => by
    by_cases hb : b < bits.length
    · by_cases hu : u k < strength_factor s
      · cases t with
        | zero => simp [embed_lsb_go, hb, hu, selCount]
        | succ t =>
          have ht' : t < ps.length := by simpa using ht
          have IH := embed_lsb_go_getD u s bits d ps (k + 1) (b + 1) t ht'
          have e1 : b + 1 + selCount u s (k + 1) t = b + selCount u s k (t + 1) := by
            rw [selCount_succ, if_pos hu]; omega
          have e2 : k + 1 + t = k + (t + 1) := by omega
          simp only [embed_lsb_go, hb, if_true, hu, List.getD_cons_succ]
          rw [IH, e1, e2]
      · cases t with
        | zero => simp [embed_lsb_go, hb, hu, selCount]
        | succ t =>
          have ht' : t < ps.length := by simpa using ht
          have IH := embed_lsb_go_getD u s bits d ps (k + 1) b t ht'
          have e1 : b + selCount u s (k + 1) t = b + selCount u s k (t + 1) := by
            rw [selCount_succ, if_neg hu]; omega
          have e2 : k + 1 + t = k + (t + 1) := by omega
          simp only [embed_lsb_go, hb, if_true, hu, if_false, List.getD_cons_succ]
          rw [IH, e1, e2]
    · have hcond : ¬ (b + selCount u s k t < bits.length ∧ u (k + t) < strength_factor s) := by
        rintro ⟨h1, -⟩
        exact hb (by omega)
      simp [embed_lsb_go, hb, hcond]

lemma sel_indices_length (u : ℕ → ℚ) (s : ℕ) :
    ∀ (n k : ℕ), (sel_indices u s k n).length = selCount u s k n
  | 0, _ => rfl
  | n + 1, k => by
    by_cases hu : u k < strength_factor s
    · simp only [sel_indices, selCount, hu, if_true, List.length_cons,
        sel_indices_length u s n (k + 1)]
      omega
    · simp [sel_indices, selCount, hu, sel_indices_length u s n (k + 1)]

/-- The `m`-th selected pixel index is selected, lies in range, and has exactly `m`
selected pixels strictly before it. -/
lemma sel_indices_spec (u : ℕ → ℚ) (s : ℕ) :
    ∀ (n k m : ℕ), m < (sel_indices u s k n).length →
    u ((sel_indices u s k n).getD m 0) < strength_factor s ∧
    k ≤ (sel_indices u s k n).getD m 0 ∧
    (sel_indices u s k n).getD m 0 < k + n ∧
    selCount u s k ((sel_indices u s k n).getD m 0 - k) = m
  | 0, k, m, hm => by simp [sel_indices] at hm
  | n + 1, k, m, hm => by
    by_cases hu : u k < strength_factor s
    · cases m with
      | zero =>
        refine ⟨?_, ?_, ?_, ?_⟩ <;> simp [sel_indices, hu, selCount]
      | succ m =>
        have hm' : m < (sel_indices u s (k + 1) n).length := by
          simpa [sel_indices, hu] using hm
        obtain ⟨h1, h2, h3, h4⟩ := sel_indices_spec u s n (k + 1) m hm'
        simp only [sel_indices, hu, if_true, List.getD_cons_succ]
        refine ⟨h1, by omega, by omega, ?_⟩
        have e1 : (sel_indices u s (k + 1) n).getD m 0 - k
            = ((sel_indices u s (k + 1) n).getD m 0 - (k + 1)) + 1 := by omega
        rw [e1, selCount_succ, if_pos hu, h4]
        omega
    · have hm' : m < (sel_indices u s (k + 1) n).length := by
        simpa [sel_indices, hu] using hm
      obtain ⟨h1, h2, h3, h4⟩ := sel_indices_spec u s n (k + 1) m hm'
      simp only [sel_indices, hu, if_false]
      refine ⟨h1, by omega, by omega, ?_⟩
      have e1 : (sel_indices u s (k + 1) n).getD m 0 - k
          = ((sel_indices u s (k + 1) n).getD m 0 - (k + 1)) + 1 := by omega
      rw [e1, selCount_succ, if_neg hu, h4]
      omega

lemma embed_lsb_with_key_length (u : ℕ → ℚ) (img : List Pix) (bits : List ℕ) (s : ℕ) :
    (embed_lsb_with_key u img bits s).length = img.length :=
  embed_lsb_go_length u s bits img 0 0

/-- Bit `m` of the payload can be read back from the LSB of the blue channel of the
`m`-th selected pixel of the embedded image. -/
lemma embedded_bit_at (u : ℕ → ℚ) (s : ℕ) (bits : List ℕ) (img : List Pix)
    (hbits : ∀ x ∈ bits, x ≤ 1) (m : ℕ) (hm : m < bits.length)
    (hms : m < selCount u s 0 img.length) :
    blueLSB ((embed_lsb_with_key u img bits s).getD
      ((sel_indices u s 0 img.length).getD m 0) (0, 0, 0)) = bits.getD m 0 := by
  have hlen : m < (sel_indices u s 0 img.length).length := by
    rw [sel_indices_length]; exact hms
  obtain ⟨h1, h2, h3, h4⟩ := sel_indices_spec u s img.length 0 m hlen
  have ht : (sel_indices u s 0 img.length).getD m 0 < img.length := by
    simpa using h3
  have h4' : selCount u s 0 ((sel_indices u s 0 img.length).getD m 0) = m := by
    simpa using h4
  have hpt := embed_lsb_go_getD u s bits (0, 0, 0) img 0 0
    ((sel_indices u s 0 img.length).getD m 0) ht
  have hcond : 0 + selCount u s 0 ((sel_indices u s 0 img.length).getD m 0) < bits.length ∧
      u (0 + (sel_indices u s 0 img.length).getD m 0) < strength_factor s := by
    constructor
    · rw [Nat.zero_add, h4']
      exact hm
    · rw [Nat.zero_add]
      exact h1
  rw [embed_lsb_with_key, hpt, if_pos hcond]
  have hidx : 0 + selCount u s 0 ((sel_indices u s 0 img.length).getD m 0) = m := by
    rw [Nat.zero_add]
    exact h4'
  rw [hidx]
  exact blueLSB_writeBlue _ (hbits _ (getD_mem bits m 0 hm))

lemma map_take_getD {α β : Type} (f : α → β) (l : List α) (a m : ℕ) (d : α) (db : β)
    (hm : m < a) (hl : m < l.length) :
    ((l.take a).map f).getD m db = f (l.getD m d) := by
  have h1 : m < ((l.take a).map f).length := by
    simp only [List.length_map, List.length_take]
    omega
  have h2 : m < (l.take a).length := by
    simp only [List.length_take]; omega
  rw [List.getD_eq_getElem _ _ h1, List.getD_eq_getElem _ _ hl]
  rw [List.getElem_map]
  simp [List.getElem_take]

/-- C1 amended: the spatial round trip holds whenever the PRNG actually selects at
least `32 + |ciphertext bits|` pixels in the image (the claim's area bound
`H·W ≥ 100·|payload|/s` only makes that count sufficient in expectation): extraction
with the same key-derived draw sequence and strength returns exactly the embedded
record, whose `text` is the caller's text and whose `key_hash` is the first 16 hex
characters of SHA-256(secret). -/
theorem c1_roundtrip_invisible_amended (enc : SigInvisible → List ℕ)
    (dec : List ℕ → Option SigInvisible) (u : ℕ → ℚ) (img : List Pix)
    (text timestamp dimensions : String) (user_key : List ℕ) (strength : ℕ)
    (hdec : dec (enc (build_invisible_record text timestamp dimensions strength user_key))
      = some (build_invisible_record text timestamp dimensions strength user_key))
    (hbytes : ∀ b ∈ enc (build_invisible_record text timestamp dimensions strength user_key),
      b < 256)
    (hct0 : enc (build_invisible_record text timestamp dimensions strength user_key) ≠ [])
    (hctM : 8 * (enc (build_invisible_record text timestamp dimensions strength user_key)).length
      ≤ 100000)
    (hsel : 32 + 8 * (enc (build_invisible_record text timestamp dimensions strength
      user_key)).length ≤ selCount u strength 0 img.length) :
    extract_lsb_watermark dec u strength
        (invisible_watermark enc u img text timestamp dimensions user_key strength)
      = Except.ok (build_invisible_record text timestamp dimensions strength user_key) ∧
    (build_invisible_record text timestamp dimensions strength user_key).text = text ∧
    (build_invisible_record text timestamp dimensions strength user_key).key_hash
      = (hexDigest (sha256 user_key)).take 16 := by
  refine ⟨?_, rfl, by simp [build_invisible_record, key_hash_of]⟩
  set rec := build_invisible_record text timestamp dimensions strength user_key with hrec
  set ct := enc rec with hctdef
  set L := 8 * ct.length with hLdef
  set payload := prepare_binary_data ct with hpayloaddef
  have hL32 : (bytesToBits ct).length = L := bytesToBits_length ct
  have hLlt : L < 2 ^ 32 := by
    have h1 : (100000 : ℕ) < 2 ^ 32 := by norm_num
    omega
  have hplen : payload.length = 32 + L := prepare_binary_data_length (by omega)
  have hpbits : ∀ x ∈ payload, x ≤ 1 := prepare_binary_data_le_one ct
  have hL0 : 0 < L := by
    have h1 : ct.length ≠ 0 := fun h => hct0 (List.eq_nil_of_length_eq_zero h)
    omega
  have hpayload2 : payload = lengthHeader32 L ++ bytesToBits ct := by
    rw [hpayloaddef, prepare_binary_data, hL32]
  have hhl : (lengthHeader32 L).length = 32 := lengthHeader32_length hLlt
  have himg2 : invisible_watermark enc u img text timestamp dimensions user_key strength
      = embed_lsb_with_key u img payload strength := rfl
  rw [himg2]
  set img2 := embed_lsb_with_key u img payload strength with himg2def
  have hlen2 : img2.length = img.length := embed_lsb_with_key_length u img payload strength
  have hidx2 : sel_indices u strength 0 img2.length = sel_indices u strength 0 img.length := by
    rw [hlen2]
  have hidxlen : (sel_indices u strength 0 img.length).length
      = selCount u strength 0 img.length := sel_indices_length u strength img.length 0
  have hbit : ∀ m, m < 32 + L →
      blueLSB (img2.getD ((sel_indices u strength 0 img.length).getD m 0) (0, 0, 0))
        = payload.getD m 0 := by
    intro m hm
    exact embedded_bit_at u strength payload img hpbits m (by omega) (by omega)
  have hread : ∀ n, n ≤ 32 + L → lsb_read_bits u strength img2 n = payload.take n := by
    intro n hn
    rw [lsb_read_bits, hidx2]
    apply list_ext_getD 0
    · simp only [List.length_map, List.length_take, hplen, hidxlen]
      omega
    · intro m hm
      have hmn : m < n := by
        simp only [List.length_map, List.length_take] at hm
        omega
      rw [map_take_getD _ _ n m 0 0 hmn (by omega), hbit m (by omega)]
      have hmp : m < payload.length := by omega
      have hmt : m < (payload.take n).length := by
        simp only [List.length_take]
        omega
      rw [List.getD_eq_getElem _ _ hmt, List.getD_eq_getElem _ _ hmp]
      simp [List.getElem_take]
  have htake32 : payload.take 32 = lengthHeader32 L := by
    rw [hpayload2, ← hhl, List.take_left]
  have hread32 : lsb_read_bits u strength img2 32 = lengthHeader32 L := by
    rw [hread 32 (by omega), htake32]
  have hmsg : lsb_msg_length u strength img2 = L := by
    rw [lsb_msg_length, hread32, bitsToNat_lengthHeader32]
  have hreadall : lsb_read_bits u strength img2 (32 + L) = payload := by
    rw [hread (32 + L) (le_refl _), ← hplen, List.take_length]
  have hdropmsg : payload.drop 32 = bytesToBits ct := by
    rw [hpayload2, ← hhl, List.drop_left]
  have htakeL : (bytesToBits ct).take L = bytesToBits ct := by
    rw [← hL32, List.take_length]
  have hmsgbits : ((lsb_read_bits u strength img2
      (32 + lsb_msg_length u strength img2)).drop 32).take (lsb_msg_length u strength img2)
      = bytesToBits ct := by
    rw [hmsg, hreadall, hdropmsg, htakeL]
  rw [extract_lsb_watermark, hidx2, hmsgbits, hmsg]
  rw [if_neg (by omega : ¬ (sel_indices u strength 0 img.length).length < 32)]
  rw [if_neg (by omega : ¬ L = 0)]
  rw [if_neg (by omega : ¬ 100000 < L)]
  rw [if_neg (by omega : ¬ (sel_indices u strength 0 img.length).length < 32 + L)]
  rw [if_neg (by rw [hL32] ; omega : ¬ ¬ (bytesToBits ct).length % 8 = 0)]
  rw [bitsToBytes_bytesToBits ct hbytes, hdec]

/-- C2 amended: the embed loop never signals a capacity error.  It is total, preserves
the pixel count, and silently embeds only the first `selCount` payload bits — any
payload bits beyond the number of selected pixels are dropped. -/
theorem c2_truncation_amended (u : ℕ → ℚ) (strength : ℕ) (bits : List ℕ) (img : List Pix) :
    (embed_lsb_with_key u img bits strength).length = img.length ∧
    embed_lsb_with_key u img bits strength
      = embed_lsb_with_key u img (bits.take (selCount u strength 0 img.length)) strength := by
  refine ⟨embed_lsb_with_key_length u img bits strength, ?_⟩
  apply list_ext_getD (0, 0, 0)
  · rw [embed_lsb_with_key_length, embed_lsb_with_key_length]
  · intro t ht
    rw [embed_lsb_with_key_length] at ht
    rw [embed_lsb_with_key, embed_lsb_with_key,
      embed_lsb_go_getD u strength bits (0, 0, 0) img 0 0 t ht,
      embed_lsb_go_getD u strength (bits.take (selCount u strength 0 img.length)) (0, 0, 0)
        img 0 0 t ht]
    by_cases hu : u (0 + t) < strength_factor strength
    · have hlt : selCount u strength 0 t < selCount u strength 0 img.length :=
        selCount_lt_total u strength ht (by simpa using hu)
      by_cases hc : selCount u strength 0 t < bits.length
      · have hc2 : 0 + selCount u strength 0 t
            < (bits.take (selCount u strength 0 img.length)).length := by
          simp only [List.length_take]
          omega
        rw [if_pos ⟨by omega, hu⟩, if_pos ⟨hc2, hu⟩]
        have hg : (bits.take (selCount u strength 0 img.length)).getD
            (0 + selCount u strength 0 t) 0 = bits.getD (0 + selCount u strength 0 t) 0 := by
          rw [List.getD_eq_getElem _ _ hc2, List.getD_eq_getElem _ _ (by omega : 0 +
            selCount u strength 0 t < bits.length)]
          simp [List.getElem_take]
        rw [hg]
      · rw [if_neg (by rintro ⟨h1, -⟩; omega), if_neg ?_]
        rintro ⟨h1, -⟩
        simp only [List.length_take] at h1
        omega
    · rw [if_neg (by rintro ⟨-, h2⟩; exact hu h2), if_neg (by rintro ⟨-, h2⟩; exact hu h2)]

lemma countDiff_self {α : Type} [DecidableEq α] : ∀ l : List α, countDiff l l = 0
  | [] => rfl
  | p :: ps => by simp [countDiff, countDiff_self ps]

lemma embed_lsb_go_countDiff (u : ℕ → ℚ) (s : ℕ) (bits : List ℕ) :
    ∀ (ps : List Pix) (k b : ℕ), countDiff (embed_lsb_go u s bits k b ps) ps ≤ bits.length - b
  | [], _, _ => by simp [embed_lsb_go, countDiff]
  | p :: ps, k, b => by
    by_cases hb : b < bits.length
    · by_cases hu : u k < strength_factor s
      · have IH := embed_lsb_go_countDiff u s bits ps (k + 1) (b + 1)
        simp only [embed_lsb_go, hb, if_true, hu, countDiff]
        have hite : (if writeBlue (bits.getD b 0) p = p then 0 else 1) ≤ 1 := by
          split <;> omega
        omega
      · have IH := embed_lsb_go_countDiff u s bits ps (k + 1) b
        simp only [embed_lsb_go, hb, if_true, hu, if_false, countDiff, if_pos rfl]
        omega
    · simp [embed_lsb_go, hb, countDiff_self]

lemma embed_lsb_go_frame (u : ℕ → ℚ) (s : ℕ) (bits : List ℕ)
    (hbits : ∀ x ∈ bits, x ≤ 1) :
    ∀ (ps : List Pix) (k b t : ℕ) (d : Pix),
      ((embed_lsb_go u s bits k b ps).getD t d).1 = (ps.getD t d).1 ∧
      ((embed_lsb_go u s bits k b ps).getD t d).2.1 = (ps.getD t d).2.1 ∧
      ((embed_lsb_go u s bits k b ps).getD t d).2.2 / 2 = (ps.getD t d).2.2 / 2
  | [], k, b, t, d => by simp [embed_lsb_go]
  | p :: ps, k, b, t, d => by
    by_cases hb : b < bits.length
    · by_cases hu : u k < strength_factor s
      · cases t with
        | zero =>
          simp only [embed_lsb_go, hb, if_true, hu, List.getD_cons_zero]
          refine ⟨rfl, rfl, ?_⟩
          exact setLSB_div_two _ _ (hbits _ (getD_mem bits b 0 hb))
        | succ t =>
          simp only [embed_lsb_go, hb, if_true, hu, List.getD_cons_succ]
          exact embed_lsb_go_frame u s bits hbits ps (k + 1) (b + 1) t d
      · cases t with
        | zero => simp [embed_lsb_go, hb, hu]
        | succ t =>
          simp only [embed_lsb_go, hb, if_true, hu, if_false, List.getD_cons_succ]
          exact embed_lsb_go_frame u s bits hbits ps (k + 1) b t d
    · simp [embed_lsb_go, hb]

lemma embed_lsb_gray_go_length (u : ℕ → ℚ) (s : ℕ) (bits : List ℕ) :
    ∀ (ps : List ℕ) (k b : ℕ), (embed_lsb_gray_go u s bits k b ps).length = ps.length
  | [], _, _ => rfl
  | v :: ps, k, b => by
    by_cases hb : b < bits.length
    · by_cases hu : u k < strength_factor s
      · simp [embed_lsb_gray_go, hb, hu, embed_lsb_gray_go_length u s bits ps (k + 1) (b + 1)]
      · simp [embed_lsb_gray_go, hb, hu, embed_lsb_gray_go_length u s bits ps (k + 1) b]
    · simp [embed_lsb_gray_go, hb]

lemma embed_lsb_gray_go_frame (u : ℕ → ℚ) (s : ℕ) (bits : List ℕ)
    (hbits : ∀ x ∈ bits, x ≤ 1) :
    ∀ (ps : List ℕ) (k b t : ℕ) (d : ℕ),
      (embed_lsb_gray_go u s bits k b ps).getD t d / 2 = ps.getD t d / 2
  | [], k, b, t, d => by simp [embed_lsb_gray_go]
  | v :: ps, k, b, t, d => by
    by_cases hb : b < bits.length
    · by_cases hu : u k < strength_factor s
      · cases t with
        | zero =>
          simp only [embed_lsb_gray_go, hb, if_true, hu, List.getD_cons_zero]
          exact setLSB_div_two _ _ (hbits _ (getD_mem bits b 0 hb))
        | succ t =>
          simp only [embed_lsb_gray_go, hb, if_true, hu, List.getD_cons_succ]
          exact embed_lsb_gray_go_frame u s bits hbits ps (k + 1) (b + 1) t d
      · cases t with
        | zero => simp [embed_lsb_gray_go, hb, hu]
        | succ t =>
          simp only [embed_lsb_gray_go, hb, if_true, hu, if_false, List.getD_cons_succ]
          exact embed_lsb_gray_go_frame u s bits hbits ps (k + 1) b t d
    · simp [embed_lsb_gray_go, hb]

lemma embed_lsb_gray_go_countDiff (u : ℕ → ℚ) (s : ℕ) (bits : List ℕ) :
    ∀ (ps : List ℕ) (k b : ℕ), countDiff (embed_lsb_gray_go u s bits k b ps) ps ≤ bits.length - b
  | [], _, _ => by simp [embed_lsb_gray_go, countDiff]
  | v :: ps, k, b => by
    by_cases hb : b < bits.length
    · by_cases hu : u k < strength_factor s
      · have IH := embed_lsb_gray_go_countDiff u s bits ps (k + 1) (b + 1)
        simp only [embed_lsb_gray_go, hb, if_true, hu, countDiff]
        have hite : (if setLSB (bits.getD b 0) v = v then 0 else 1) ≤ 1 := by
          split <;> omega
        omega
      · have IH := embed_lsb_gray_go_countDiff u s bits ps (k + 1) b
        simp only [embed_lsb_gray_go, hb, if_true, hu, if_false, countDiff, if_pos rfl]
        omega
    · simp [embed_lsb_gray_go, hb, countDiff_self]

/-- C10: `embed_lsb_with_key` preserves the pixel count and 8-bit depth; on a colour
image it never touches the red and green channels and changes the blue channel only in
its LSB; on a grayscale image each sample changes only in its LSB; and in both cases
the number of modified samples is at most the number of payload bits. -/
theorem c10_embed_frame (u : ℕ → ℚ) (strength : ℕ) (bits : List ℕ) (imgC : List Pix)
    (imgG : List ℕ) (hbits : ∀ x ∈ bits, x ≤ 1) :
    (embed_lsb_with_key u imgC bits strength).length = imgC.length ∧
    (∀ t d, ((embed_lsb_with_key u imgC bits strength).getD t d).1 = (imgC.getD t d).1 ∧
      ((embed_lsb_with_key u imgC bits strength).getD t d).2.1 = (imgC.getD t d).2.1 ∧
      ((embed_lsb_with_key u imgC bits strength).getD t d).2.2 / 2
        = (imgC.getD t d).2.2 / 2) ∧
    (∀ t d, (imgC.getD t d).2.2 < 256 →
      ((embed_lsb_with_key u imgC bits strength).getD t d).2.2 < 256) ∧
    countDiff (embed_lsb_with_key u imgC bits strength) imgC ≤ bits.length ∧
    (embed_lsb_with_key_gray u imgG bits strength).length = imgG.length ∧
    (∀ t d, (embed_lsb_with_key_gray u imgG bits strength).getD t d / 2 = imgG.getD t d / 2) ∧
    (∀ t d, imgG.getD t d < 256 →
      (embed_lsb_with_key_gray u imgG bits strength).getD t d < 256) ∧
    countDiff (embed_lsb_with_key_gray u imgG bits strength) imgG ≤ bits.length := by
  refine ⟨embed_lsb_with_key_length u imgC bits strength,
    fun t d => embed_lsb_go_frame u strength bits hbits imgC 0 0 t d,
    fun t d hd => ?_,
    le_trans (embed_lsb_go_countDiff u strength bits imgC 0 0) (by omega),
    embed_lsb_gray_go_length u strength bits imgG 0 0,
    fun t d => embed_lsb_gray_go_frame u strength bits hbits imgG 0 0 t d,
    fun t d hd => ?_,
    le_trans (embed_lsb_gray_go_countDiff u strength bits imgG 0 0) (by omega)⟩
  · have h1 := (embed_lsb_go_frame u strength bits hbits imgC 0 0 t d).2.2
    have h2 : embed_lsb_go u strength bits 0 0 imgC
        = embed_lsb_with_key u imgC bits strength := rfl
    rw [h2] at h1
    omega
  · have h1 := embed_lsb_gray_go_frame u strength bits hbits imgG 0 0 t d
    have h2 : embed_lsb_gray_go u strength bits 0 0 imgG
        = embed_lsb_with_key_gray u imgG bits strength := rfl
    rw [h2] at h1
    omega

/-- C1 witness: a concrete 48-pixel image at strength 50 with an all-pass draw sequence;
the round trip returns the embedded record, whose text is `"hi"` and whose `key_hash`
is the first 16 hex characters of SHA-256 of the secret `"k"`. -/
theorem c1_roundtrip_invisible_witness :
    extract_lsb_watermark c1wDec uZero 50
        (invisible_watermark c1wEnc uZero (List.replicate 48 ((0, 0, 0) : Pix))
          "hi" "2025-01-01T00:00:00" "4x12" (strBytes "k") 50)
      = Except.ok c1wRec ∧
    c1wRec.text = "hi" ∧
    c1wRec.key_hash = (hexDigest (sha256 (strBytes "k"))).take 16 :=
  c1_roundtrip_invisible_amended c1wEnc c1wDec uZero (List.replicate 48 ((0, 0, 0) : Pix))
    "hi" "2025-01-01T00:00:00" "4x12" (strBytes "k") 50
    (by decide) (by decide) (by decide) (by decide) (by decide)

/-- C1 counterexample: an 80-pixel image meets the claim's area bound
`H·W ≥ 100·|payload_bits|/s` with equality for a 40-bit payload at strength 50, yet a
draw sequence whose draws all equal 9/10 selects no pixel, so extraction returns the
not-enough-pixels error instead of the record — the claim's bound does not guarantee
the round trip. -/
theorem c1_counterexample :
    100 * 40 / 50 ≤ 80 ∧
    (prepare_binary_data (c1wEnc (build_invisible_record "A" "ts" "10x8" 50
      (strBytes "k")))).length = 40 ∧
    extract_lsb_watermark c1wDec uHigh 50
        (invisible_watermark c1wEnc uHigh (List.replicate 80 ((0, 0, 0) : Pix))
          "A" "ts" "10x8" (strBytes "k") 50)
      = Except.error LsbErr.notEnoughPixels := by
  decide

/-- C2 counterexample: a 10-bit payload exceeds the claimed capacity
`⌊s·H·W/100⌋ = 2` of a 4-pixel image at strength 50, yet `embed_lsb_with_key` raises no
error — it returns a watermarked image (here with the first 4 bits embedded). -/
theorem c2_counterexample :
    50 * 4 / 100 < 10 ∧
    embed_lsb_with_key uZero (List.replicate 4 ((0, 0, 0) : Pix)) (List.replicate 10 1) 50
      = List.replicate 4 ((0, 0, 1) : Pix) := by
  decide

/-- C3: two calls of the invisible pipeline on identical inputs (same image, text bytes,
timestamp, strength) differ as soon as the Fernet layer draws two different IVs — which
it does on every call — so `apply` is not a pure function of the claimed inputs and the
returned pixel buffers are not byte-identical. -/
theorem c3_fernet_iv_changes_output :
    embed_lsb_with_key uZero (List.replicate 616 ((0, 0, 0) : Pix))
        (prepare_binary_data (fernet_token 0 (List.replicate 16 0) (List.replicate 16 0)
          (List.replicate 32 0))) 100
      ≠ embed_lsb_with_key uZero (List.replicate 616 ((0, 0, 0) : Pix))
        (prepare_binary_data (fernet_token 0 (List.replicate 15 0 ++ [1]) (List.replicate 16 0)
          (List.replicate 32 0))) 100 := by
  decide

/-- C10 witness: concrete one-pixel colour image and unit grayscale image. -/
theorem c10_embed_frame_witness :
    (embed_lsb_with_key uZero [((1 : ℕ), (2 : ℕ), (3 : ℕ))] [1, 0] 50).length = 1 ∧
    countDiff (embed_lsb_with_key_gray uZero [7] [1, 0] 50) [7] ≤ 2 :=
  ⟨(c10_embed_frame uZero 50 [1, 0] [(1, 2, 3)] [7] (by decide)).1,
   (c10_embed_frame uZero 50 [1, 0] [(1, 2, 3)] [7] (by decide)).2.2.2.2.2.2.2⟩

/-! ### The redundancy codec (C5) -/

lemma decode_redundancy_go_eq_chunk : ∀ (fuel r : ℕ) (l : List ℕ),
    decode_redundancy_go fuel r l = (chunkGo r fuel l).map majority_bit
  | 0, _, l => by cases l <;> rfl
  | _ + 1, _, [] => rfl
  | fuel + 1, r, x :: xs => by
    simp only [decode_redundancy_go, chunkGo, List.map_cons]
    rw [decode_redundancy_go_eq_chunk fuel r ((x :: xs).drop r)]

lemma chunkGo_mem_subset : ∀ (fuel r : ℕ) (l g : List ℕ), g ∈ chunkGo r fuel l →
    ∀ x ∈ g, x ∈ l
  | 0, _, _, _, hg => by simp [chunkGo] at hg
  | _ + 1, _, [], _, hg => by simp [chunkGo] at hg
  | fuel + 1, r, y :: ys, g, hg => by
    intro x hx
    simp only [chunkGo, List.mem_cons] at hg
    rcases hg with hg | hg
    · subst hg
      exact List.take_subset r (y :: ys) hx
    · exact List.drop_subset r (y :: ys) (chunkGo_mem_subset fuel r ((y :: ys).drop r) g hg x hx)

lemma count_zero_add_count_one (g : List ℕ) (hg : ∀ x ∈ g, x ≤ 1) :
    g.count 0 + g.count 1 = g.length := by
  induction g with
  | nil => rfl
  | cons x t ih =>
    have hx : x ≤ 1 := hg x (List.mem_cons_self x t)
    have ht := ih (fun y hy => hg y (List.mem_cons_of_mem x hy))
    simp only [List.count_cons, List.length_cons]
    interval_cases x <;> simp <;> omega

lemma majority_bit_eq_spec (g : List ℕ) (hg : ∀ x ∈ g, x ≤ 1) :
    majority_bit g = spec_majority g := by
  have h := count_zero_add_count_one g hg
  have h1 : g.count 1 ≤ g.length := List.count_le_length 1 g
  rw [majority_bit, spec_majority]
  by_cases hc : g.length - g.count 1 < g.count 1
  · rw [if_pos hc, if_pos (by omega)]
  · rw [if_neg hc, if_neg (by omega)]

lemma decode_redundancy_eq_chunks (r : ℕ) (l : List ℕ) (hl : ∀ x ∈ l, x ≤ 1) :
    decode_redundancy r l = (chunkList r l).map spec_majority := by
  rw [decode_redundancy, decode_redundancy_go_eq_chunk, chunkList]
  apply List.map_congr_left
  intro g hg
  exact majority_bit_eq_spec g (fun x hx => hl x (chunkGo_mem_subset _ r l g hg x hx))

lemma expand_redundancy_length (r : ℕ) : ∀ (bits : List ℕ),
    (expand_redundancy r bits).length = r * bits.length
  | [] => by simp [expand_redundancy]
  | b :: t => by
    simp only [expand_redundancy, List.length_append, List.length_replicate,
      expand_redundancy_length r t, List.length_cons]
    ring

lemma expand_redundancy_mem (r : ℕ) : ∀ (bits : List ℕ), ∀ x ∈ expand_redundancy r bits,
    x ∈ bits
  | [], x, hx => by simp [expand_redundancy] at hx
  | b :: t, x, hx => by
    simp only [expand_redundancy, List.mem_append] at hx
    rcases hx with hx | hx
    · rw [List.eq_of_mem_replicate hx]
      exact List.mem_cons_self b t
    · exact List.mem_cons_of_mem b (expand_redundancy_mem r t x hx)

lemma expand_redundancy_getD (r : ℕ) : ∀ (bits : List ℕ) (k : ℕ),
    k < r * bits.length →
    (expand_redundancy r bits).getD k 0 = bits.getD (k / r) 0
  | [], k, hk => by simp at hk
  | b :: t, k, hk => by
    have hr : 0 < r := by
      rcases Nat.eq_zero_or_pos r with h | h
      · subst h; simp at hk
      · exact h
    by_cases hkr : k < r
    · rw [expand_redundancy, List.getD_append _ _ _ _ (by simpa using hkr),
        Nat.div_eq_of_lt hkr]
      have hkrep : k < (List.replicate r b).length := by simpa using hkr
      rw [List.getD_eq_getElem _ _ hkrep, List.getElem_replicate, List.getD_cons_zero]
    · push_neg at hkr
      have hk2 : k - r < r * t.length := by
        have := expand_redundancy_length r (b :: t)
        simp only [List.length_cons] at hk
        have : r * (t.length + 1) = r * t.length + r := by ring
        omega
      rw [expand_redundancy, List.getD_append_right _ _ _ _ (by simpa using hkr)]
      simp only [List.length_replicate]
      rw [expand_redundancy_getD r t (k - r) hk2]
      have hdiv : k / r = (k - r) / r + 1 := by
        have hk3 : k = (k - r) + r := by omega
        conv_lhs => rw [hk3]
        rw [Nat.add_div_right _ hr]
      rw [hdiv, List.getD_cons_succ]

lemma majority_bit_replicate {b r : ℕ} (hb : b ≤ 1) (hr : 1 ≤ r) :
    majority_bit (List.replicate r b) = b := by
  rw [majority_bit, List.length_replicate, List.count_replicate]
  interval_cases b
  · norm_num
  · have h1 : (if ((1 : ℕ) == 1) = true then r else 0) = r := by norm_num
    rw [h1, if_pos (by omega)]

lemma decode_redundancy_go_irrel {r : ℕ} (hr : 1 ≤ r) : ∀ (f1 f2 : ℕ) (l : List ℕ),
    l.length ≤ f1 → l.length ≤ f2 → decode_redundancy_go f1 r l = decode_redundancy_go f2 r l
  | 0, f2, l, h1, h2 => by
    have hl : l = [] := List.eq_nil_of_length_eq_zero (by omega)
    subst hl
    cases f2 <;> rfl
  | f1 + 1, f2, l, h1, h2 => by
    cases l with
    | nil => cases f2 <;> rfl
    | cons b t =>
      cases f2 with
      | zero => simp at h2
      | succ f2 =>
        simp only [decode_redundancy_go]
        have hd : ((b :: t).drop r).length = t.length + 1 - r := by
          simp [List.length_drop]
        have h1' : t.length + 1 ≤ f1 + 1 := by simpa using h1
        have h2' : t.length + 1 ≤ f2 + 1 := by simpa using h2
        rw [decode_redundancy_go_irrel hr f1 f2 ((b :: t).drop r)
          (by rw [hd]; omega) (by rw [hd]; omega)]

lemma decode_redundancy_eq {r : ℕ} (hr : 1 ≤ r) (l : List ℕ) :
    decode_redundancy r l
      = if l = [] then [] else majority_bit (l.take r) :: decode_redundancy r (l.drop r) := by
  cases l with
  | nil => rfl
  | cons b t =>
    rw [if_neg (by simp)]
    show decode_redundancy_go (t.length + 1) r (b :: t) = _
    simp only [decode_redundancy_go]
    have hd : ((b :: t).drop r).length = t.length + 1 - r := by
      simp [List.length_drop]
    rw [decode_redundancy_go_irrel hr t.length ((b :: t).drop r).length ((b :: t).drop r)
      (by rw [hd]; omega) (le_refl _)]
    rfl

lemma decode_expand_redundancy {r : ℕ} (hr : 1 ≤ r) : ∀ (bits : List ℕ),
    (∀ x ∈ bits, x ≤ 1) →
    decode_redundancy r (expand_redundancy r bits) = bits
  | [], _ => rfl
  | b :: t, hbits => by
    have hb : b ≤ 1 := hbits b (List.mem_cons_self b t)
    have ht : ∀ x ∈ t, x ≤ 1 := fun x hx => hbits x (List.mem_cons_of_mem b hx)
    have hlen : (List.replicate r b).length = r := List.length_replicate r b
    rw [expand_redundancy, decode_redundancy_eq hr]
    rw [if_neg (by
      intro hc
      have := congrArg List.length hc
      simp only [List.length_append, List.length_replicate, List.length_nil] at this
      omega)]
    rw [List.take_left' hlen, List.drop_left' hlen]
    rw [majority_bit_replicate hb hr, decode_expand_redundancy hr t ht]

/-- C5: the redundancy factor is `max(1, s / 25)` (integer division); the embedder
writes each payload bit `r` times consecutively (bit `k` of the redundant stream is
payload bit `k / r`); the extractor decodes each consecutive block of `r` recovered
bits by majority vote with ties resolved to 0; consequently decoding inverts the
expansion. -/
theorem c5_redundancy_codec (strength : ℕ) (bits l : List ℕ)
    (hbits : ∀ x ∈ bits, x ≤ 1) (hl : ∀ x ∈ l, x ≤ 1) :
    steg_redundancy strength = max 1 (strength / 25) ∧
    (expand_redundancy (steg_redundancy strength) bits).length
      = steg_redundancy strength * bits.length ∧
    (∀ k, k < steg_redundancy strength * bits.length →
      (expand_redundancy (steg_redundancy strength) bits).getD k 0
        = bits.getD (k / steg_redundancy strength) 0) ∧
    decode_redundancy (steg_redundancy strength) l
      = (chunkList (steg_redundancy strength) l).map spec_majority ∧
    decode_redundancy (steg_redundancy strength)
        (expand_redundancy (steg_redundancy strength) bits)
      = bits :=
  ⟨rfl, expand_redundancy_length _ bits,
   fun k hk => expand_redundancy_getD _ bits k hk,
   decode_redundancy_eq_chunks _ l hl,
   decode_expand_redundancy (le_max_left 1 _) bits hbits⟩

/-- C5 witness: strength 50 gives redundancy 2; a concrete stream decodes blockwise by
majority and expansion round-trips. -/
theorem c5_redundancy_codec_witness :
    decode_redundancy (steg_redundancy 50)
        (expand_redundancy (steg_redundancy 50) [1, 0, 1]) = [1, 0, 1] :=
  (c5_redundancy_codec 50 [1, 0, 1] [1, 1, 0] (by decide) (by decide)).2.2.2.2

/-! ### The redundant embed/extract pipeline (C6) -/

lemma read_channel_write_channel (c : ℕ) {bit : ℕ} (p : Pix) (hb : bit ≤ 1) :
    read_channel c (write_channel c bit p) = bit := by
  by_cases h0 : c = 0
  · simp [read_channel, write_channel, h0, setLSB_mod_two _ hb]
  · by_cases h1 : c = 1
    · simp [read_channel, write_channel, h0, h1, setLSB_mod_two _ hb]
    · simp [read_channel, write_channel, h0, h1, setLSB_mod_two _ hb]

lemma read_channel_flip_channel (c : ℕ) (p : Pix) :
    read_channel c (flip_channel c p) = 1 - read_channel c p := by
  by_cases h0 : c = 0
  · simp [read_channel, flip_channel, h0, setLSB_mod_two _ (by omega : 1 - p.1 % 2 ≤ 1)]
  · by_cases h1 : c = 1
    · simp [read_channel, flip_channel, h0, h1,
        setLSB_mod_two _ (by omega : 1 - p.2.1 % 2 ≤ 1)]
    · simp [read_channel, flip_channel, h0, h1,
        setLSB_mod_two _ (by omega : 1 - p.2.2 % 2 ≤ 1)]

lemma embed_redundancy_go_length (chan : ℕ → ℕ) (rbits : List ℕ) :
    ∀ (ps : List Pix) (k : ℕ), (embed_redundancy_go chan rbits k ps).length = ps.length
  | [], _ => rfl
  | p :: ps, k => by
    by_cases hk : k < rbits.length
    · simp [embed_redundancy_go, hk, embed_redundancy_go_length chan rbits ps (k + 1)]
    · simp [embed_redundancy_go, hk]

lemma embed_redundancy_go_getD (chan : ℕ → ℕ) (rbits : List ℕ) (d : Pix) :
    ∀ (ps : List Pix) (k t : ℕ), t < ps.length →
    (embed_redundancy_go chan rbits k ps).getD t d =
      if k + t < rbits.length
      then write_channel (chan (k + t)) (rbits.getD (k + t) 0) (ps.getD t d)
      else ps.getD t d
  | [], k, t, ht => by simp at ht
  | p :: ps, k, t, ht => by
    by_cases hk : k < rbits.length
    · cases t with
      | zero => simp [embed_redundancy_go, hk]
      | succ t =>
        have ht' : t < ps.length := by simpa using ht
        have IH := embed_redundancy_go_getD chan rbits d ps (k + 1) t ht'
        simp only [embed_redundancy_go, hk, if_true, List.getD_cons_succ]
        rw [IH]
        have e : k + 1 + t = k + (t + 1) := by omega
        rw [e]
    · have hcond : ¬ k + t < rbits.length := by omega
      simp [embed_redundancy_go, hk, hcond]

lemma flip_image_length (F : Finset ℕ) (chan : ℕ → ℕ) :
    ∀ (ps : List Pix) (k : ℕ), (flip_image F chan k ps).length = ps.length
  | [], _ => rfl
  | p :: ps, k => by
    simp [flip_image, flip_image_length F chan ps (k + 1)]

lemma flip_image_getD (F : Finset ℕ) (chan : ℕ → ℕ) (d : Pix) :
    ∀ (ps : List Pix) (k t : ℕ), t < ps.length →
    (flip_image F chan k ps).getD t d =
      if k + t ∈ F then flip_channel (chan (k + t)) (ps.getD t d) else ps.getD t d
  | [], k, t, ht => by simp at ht
  | p :: ps, k, t, ht => by
    cases t with
    | zero => simp [flip_image]
    | succ t =>
      have ht' : t < ps.length := by simpa using ht
      have IH := flip_image_getD F chan d ps (k + 1) t ht'
      simp only [flip_image, List.getD_cons_succ]
      rw [IH]
      have e : k + 1 + t = k + (t + 1) := by omega
      rw [e]

lemma extract_bits_go_length (chan : ℕ → ℕ) :
    ∀ (n : ℕ) (ps : List Pix) (k : ℕ),
    (extract_bits_go chan k n ps).length = min n ps.length
  | 0, ps, _ => by cases ps <;> simp [extract_bits_go]
  | n + 1, [], _ => by simp [extract_bits_go]
  | n + 1, p :: ps, k => by
    simp only [extract_bits_go, List.length_cons, extract_bits_go_length chan n ps (k + 1)]
    omega

lemma extract_bits_go_getD (chan : ℕ → ℕ) :
    ∀ (n : ℕ) (ps : List Pix) (k m : ℕ), m < n → m < ps.length →
    (extract_bits_go chan k n ps).getD m 0 = read_channel (chan (k + m)) (ps.getD m (0, 0, 0))
  | 0, _, _, _, hm, _ => by omega
  | n + 1, [], _, m, _, hm => by simp at hm
  | n + 1, p :: ps, k, m, hmn, hml => by
    cases m with
    | zero => simp [extract_bits_go]
    | succ m =>
      have IH := extract_bits_go_getD chan n ps (k + 1) m (by omega) (by simpa using hml)
      simp only [extract_bits_go, List.getD_cons_succ]
      rw [IH]
      have e : k + 1 + m = k + (m + 1) := by omega
      rw [e]

/-- The extracted bit at position `m` of the flipped, embedded image: the redundant
payload bit, toggled exactly on the flip set. -/
lemma extracted_flip_bit (chan : ℕ → ℕ) (rbits : List ℕ) (img : List Pix)
    (F : Finset ℕ) (total : ℕ) (hbits : ∀ x ∈ rbits, x ≤ 1)
    (htr : total ≤ rbits.length) (hti : total ≤ img.length) :
    ∀ m, m < total →
    (extract_bits_go chan 0 total
        (flip_image F chan 0 (embed_redundancy_go chan rbits 0 img))).getD m 0
      = (if m ∈ F then 1 - rbits.getD m 0 else rbits.getD m 0) := by
  intro m hm
  have hlen1 : (embed_redundancy_go chan rbits 0 img).length = img.length :=
    embed_redundancy_go_length chan rbits img 0
  have hlen2 : (flip_image F chan 0 (embed_redundancy_go chan rbits 0 img)).length
      = img.length := by
    rw [flip_image_length, hlen1]
  have hmi : m < img.length := by omega
  rw [extract_bits_go_getD chan total _ 0 m hm (by omega)]
  rw [flip_image_getD F chan _ _ 0 m (by omega)]
  rw [embed_redundancy_go_getD chan rbits _ img 0 m hmi]
  have hmr : 0 + m < rbits.length := by omega
  rw [if_pos hmr]
  have hb : rbits.getD (0 + m) 0 ≤ 1 := hbits _ (getD_mem rbits (0 + m) 0 hmr)
  simp only [Nat.zero_add]
  by_cases hmF : m ∈ F
  · rw [if_pos hmF, if_pos hmF, read_channel_flip_channel,
      read_channel_write_channel _ _ (by simpa using hb)]
  · rw [if_neg hmF, if_neg hmF, read_channel_write_channel _ _ (by simpa using hb)]

/-- A block of `r` consecutive extracted bits, as a mapped index range. -/
lemma block_eq_map_range (e : List ℕ) (base : ℕ → ℕ) (a r : ℕ)
    (har : a + r ≤ e.length) (hpt : ∀ m, m < e.length → e.getD m 0 = base m) :
    (e.drop a).take r = (List.range' a r).map base := by
  apply list_ext_getD 0
  · simp only [List.length_take, List.length_drop, List.length_map, List.length_range']
    omega
  · intro j hj
    have hjr : j < r := by
      simp only [List.length_take, List.length_drop] at hj
      omega
    have hje : a + j < e.length := by omega
    have h1 : j < ((e.drop a).take r).length := by
      simp only [List.length_take, List.length_drop]
      omega
    have h2 : j < ((List.range' a r).map base).length := by
      simp only [List.length_map, List.length_range']
      omega
    rw [List.getD_eq_getElem _ _ h1, List.getD_eq_getElem _ _ h2]
    rw [List.getElem_take, List.getElem_drop, List.getElem_map, List.getElem_range']
    have h3 := hpt (a + j) hje
    rw [List.getD_eq_getElem _ _ hje] at h3
    simp only [Nat.one_mul] at h3 ⊢
    exact h3

lemma countP_range'_le_card (F : Finset ℕ) (a r : ℕ) :
    (List.range' a r).countP (fun k => k ∈ F) ≤ F.card := by
  rw [List.countP_eq_length_filter]
  have hnd : ((List.range' a r).filter (fun k => decide (k ∈ F))).Nodup :=
    (List.nodup_range' a r).filter _
  have hsub : ((List.range' a r).filter (fun k => decide (k ∈ F))).toFinset ⊆ F := by
    intro x hx
    rw [List.mem_toFinset] at hx
    have := (List.mem_filter.mp hx).2
    simpa using this
  calc ((List.range' a r).filter (fun k => decide (k ∈ F))).length
      = ((List.range' a r).filter (fun k => decide (k ∈ F))).toFinset.card :=
        (List.toFinset_card_of_nodup hnd).symm
    _ ≤ F.card := Finset.card_le_card hsub

/-- Complement count for the membership predicate. -/
lemma countP_not_mem (F : Finset ℕ) (l : List ℕ) :
    l.countP (fun k => !(decide (k ∈ F))) = l.length - l.countP (fun k => decide (k ∈ F)) := by
  induction l with
  | nil => rfl
  | cons x t ih =>
    have hle := List.countP_le_length (fun k => decide (k ∈ F)) (l := t)
    by_cases hx : x ∈ F
    · simp [List.countP_cons, hx, ih]
      try omega
    · simp [List.countP_cons, hx, ih]
      try omega

/-- Majority vote on a block whose uncorrupted value is the constant bit `b`, with at
most `(r-1)/2` corrupted positions: the vote still returns `b`. -/
lemma majority_of_corrupted_block (F : Finset ℕ) (base : ℕ → ℕ) (rbits : List ℕ)
    (a r b : ℕ) (hb : b ≤ 1) (hr : 1 ≤ r)
    (hbase : ∀ k, base k = if k ∈ F then 1 - rbits.getD k 0 else rbits.getD k 0)
    (hconst : ∀ k, a ≤ k → k < a + r → rbits.getD k 0 = b)
    (hcard : F.card ≤ (r - 1) / 2) :
    majority_bit ((List.range' a r).map base) = b := by
  have hc : (List.range' a r).countP (fun k => decide (k ∈ F)) ≤ F.card := by
    have h1 := countP_range'_le_card F a r
    exact h1
  have hcle : (List.range' a r).countP (fun k => decide (k ∈ F)) ≤ r := by
    have h1 := List.countP_le_length (fun k => decide (k ∈ F)) (l := List.range' a r)
    rwa [List.length_range'] at h1
  have hc2 : 2 * (List.range' a r).countP (fun k => decide (k ∈ F)) ≤ r - 1 := by omega
  have hcount : ((List.range' a r).map base).count 1
      = (List.range' a r).countP (fun k => base k == 1) := by
    rw [List.count_eq_countP, List.countP_map]
    rfl
  have hlen : ((List.range' a r).map base).length = r := by
    simp [List.length_range']
  interval_cases b
  · have he : ∀ k ∈ List.range' a r, ((base k == 1) = true ↔ decide (k ∈ F) = true) := by
      intro k hk
      rw [List.mem_range'] at hk
      have h1 := hconst k (by omega) (by omega)
      rw [hbase k, h1]
      by_cases hkF : k ∈ F <;> simp [hkF]
    rw [majority_bit, hlen, hcount, List.countP_congr he]
    rw [if_neg (by omega)]
  · have he : ∀ k ∈ List.range' a r, ((base k == 1) = true ↔ (!(decide (k ∈ F))) = true) := by
      intro k hk
      rw [List.mem_range'] at hk
      have h1 := hconst k (by omega) (by omega)
      rw [hbase k, h1]
      by_cases hkF : k ∈ F <;> simp [hkF]
    rw [majority_bit, hlen, hcount, List.countP_congr he, countP_not_mem,
      List.length_range']
    rw [if_pos (by omega)]

lemma decode_redundancy_spec {r : ℕ} (hr : 1 ≤ r) :
    ∀ (m : ℕ) (l : List ℕ), l.length = r * m →
    (decode_redundancy r l).length = m ∧
    (∀ i, i < m →
      (decode_redundancy r l).getD i 0 = majority_bit ((l.drop (i * r)).take r))
  | 0, l, hl => by
    have h0 : l = [] := List.eq_nil_of_length_eq_zero (by omega)
    subst h0
    exact ⟨rfl, fun i hi => by omega⟩
  | m + 1, l, hl => by
    have hpos : 0 < r * (m + 1) := Nat.mul_pos (by omega) (by omega)
    have hne : l ≠ [] := by
      intro hc
      subst hc
      simp at hl
      omega
    have hdl : (l.drop r).length = r * m := by
      have he : r * (m + 1) = r * m + r := by ring
      simp only [List.length_drop, hl]
      omega
    obtain ⟨ih1, ih2⟩ := decode_redundancy_spec hr m (l.drop r) hdl
    rw [decode_redundancy_eq hr, if_neg hne]
    refine ⟨by simp [ih1], ?_⟩
    intro i hi
    cases i with
    | zero => simp
    | succ i =>
      rw [List.getD_cons_succ, ih2 i (by omega), List.drop_drop]
      have he : r + i * r = (i + 1) * r := by ring
      rw [he]

lemma expand_block_const {r : ℕ} (hr : 1 ≤ r) (payload : List ℕ) (i : ℕ)
    (hi : i < payload.length) :
    ∀ k, i * r ≤ k → k < i * r + r →
      (expand_redundancy r payload).getD k 0 = payload.getD i 0 := by
  intro k hk1 hk2
  have hstep : (i + 1) * r ≤ payload.length * r :=
    Nat.mul_le_mul_right r (by omega)
  have hkr : k < r * payload.length := by
    have h1 : (i + 1) * r = i * r + r := by ring
    have h2 : payload.length * r = r * payload.length := by ring
    omega
  rw [expand_redundancy_getD r payload k hkr]
  congr 1
  have hj : k = r * i + (k - i * r) := by
    have h1 : r * i = i * r := by ring
    omega
  conv_lhs => rw [hj]
  rw [Nat.mul_add_div (by omega), Nat.div_eq_of_lt (by omega)]
  omega

/-- C6 amended: after a steganography apply with redundancy r, flipping the LSBs of any
set of at most ⌊(r-1)/2⌋ embedded positions (strictly fewer than half of each block)
still lets extraction with the same channel sequence and redundancy recover the record,
text included.  The claimed tolerance ⌊r/2⌋ fails for even r: one flip ties a
2-redundant block and the tie resolves to 0. -/
theorem c6_majority_recovery_amended (enc : SigSteg → List ℕ)
    (dec : List ℕ → Option SigSteg) (chan : ℕ → ℕ) (img : List Pix)
    (text timestamp : String) (user_key : List ℕ) (strength : ℕ) (F : Finset ℕ)
    (hdec : dec (enc (build_steg_record text timestamp user_key))
      = some (build_steg_record text timestamp user_key))
    (hbytes : ∀ b ∈ enc (build_steg_record text timestamp user_key), b < 256)
    (hct0 : enc (build_steg_record text timestamp user_key) ≠ [])
    (hctM : 8 * (enc (build_steg_record text timestamp user_key)).length ≤ 100000)
    (himg : (32 + 8 * (enc (build_steg_record text timestamp user_key)).length)
      * steg_redundancy strength ≤ img.length)
    (_hF : ∀ k ∈ F,
      k < (32 + 8 * (enc (build_steg_record text timestamp user_key)).length)
        * steg_redundancy strength)
    (hFcard : F.card ≤ (steg_redundancy strength - 1) / 2) :
    extract_steganography_watermark dec chan (steg_redundancy strength)
        (flip_image F chan 0
          (steganography_watermark enc chan img text timestamp user_key strength))
      = Except.ok (build_steg_record text timestamp user_key) ∧
    (build_steg_record text timestamp user_key).text = text := by
  refine ⟨?_, rfl⟩
  set rec := build_steg_record text timestamp user_key with hrec
  set ct := enc rec with hct
  set L := 8 * ct.length with hLdef
  set r := steg_redundancy strength with hrdef
  have hr : 1 ≤ r := le_max_left 1 _
  set payload := prepare_binary_data ct with hpayloaddef
  have hL32 : (bytesToBits ct).length = L := bytesToBits_length ct
  have hLlt : L < 2 ^ 32 := by
    have h1 : (100000 : ℕ) < 2 ^ 32 := by norm_num
    omega
  have hplen : payload.length = 32 + L := prepare_binary_data_length (by omega)
  have hpbits : ∀ x ∈ payload, x ≤ 1 := prepare_binary_data_le_one ct
  have hL0 : 0 < L := by
    have h1 : ct.length ≠ 0 := fun h => hct0 (List.eq_nil_of_length_eq_zero h)
    omega
  have hpayload2 : payload = lengthHeader32 L ++ bytesToBits ct := by
    rw [hpayloaddef, prepare_binary_data, hL32]
  have hhl : (lengthHeader32 L).length = 32 := lengthHeader32_length hLlt
  set rbits := expand_redundancy r payload with hrbitsdef
  have hrblen : rbits.length = r * (32 + L) := by
    rw [hrbitsdef, expand_redundancy_length, hplen]
  have hrbbits : ∀ x ∈ rbits, x ≤ 1 := fun x hx =>
    hpbits x (expand_redundancy_mem r payload x hx)
  set total := (32 + L) * r with htotaldef
  have htot : total = r * (32 + L) := by rw [htotaldef]; ring
  have himg2eq : steganography_watermark enc chan img text timestamp user_key strength
      = embed_redundancy_go chan rbits 0 img := rfl
  set img2 := flip_image F chan 0 (embed_redundancy_go chan rbits 0 img) with himg2
  set base := fun m => if m ∈ F then 1 - rbits.getD m 0 else rbits.getD m 0 with hbasedef
  have hbit : ∀ n, n ≤ total → ∀ m, m < n →
      (extract_bits_go chan 0 n img2).getD m 0 = base m := by
    intro n hn m hm
    rw [himg2]
    exact extracted_flip_bit chan rbits img F n hrbbits (by omega) (by omega) m hm
  have hextlen : ∀ n, n ≤ total → (extract_bits_go chan 0 n img2).length = n := by
    intro n hn
    rw [extract_bits_go_length]
    have h1 : img2.length = img.length := by
      rw [himg2, flip_image_length, embed_redundancy_go_length]
    rw [h1]
    omega
  have hblock : ∀ n, n ≤ total → ∀ i, (i + 1) * r ≤ n → i < 32 + L →
      majority_bit (((extract_bits_go chan 0 n img2).drop (i * r)).take r)
        = payload.getD i 0 := by
    intro n hn i hin hiL
    have hip : i < payload.length := by omega
    have har : i * r + r ≤ (extract_bits_go chan 0 n img2).length := by
      rw [hextlen n hn]
      have h1 : (i + 1) * r = i * r + r := by ring
      omega
    rw [block_eq_map_range _ base (i * r) r har
      (fun m hm => hbit n hn m (by rw [hextlen n hn] at hm; omega))]
    refine majority_of_corrupted_block F base rbits (i * r) r (payload.getD i 0)
      (hpbits _ (getD_mem payload i 0 hip)) hr (fun k => rfl) ?_ hFcard
    intro k hk1 hk2
    rw [hrbitsdef]
    exact expand_block_const hr payload i hip k hk1 hk2
  have hheader : steg_header_bits chan r img2 = lengthHeader32 L := by
    rw [steg_header_bits]
    apply list_ext_getD 0
    · simp [hhl]
    · intro i hi
      have hi32 : i < 32 := by simpa using hi
      have h32r : 32 * r ≤ total := by
        rw [htotaldef]
        have h1 : (32 + L) * r = 32 * r + L * r := by ring
        omega
      have h1 : i < ((List.range 32).map (fun j =>
          majority_bit (((extract_bits_go chan 0 (32 * r) img2).drop (j * r)).take
            r))).length := by
        simpa using hi32
      rw [List.getD_eq_getElem _ _ h1, List.getElem_map, List.getElem_range]
      have hir : (i + 1) * r ≤ 32 * r := Nat.mul_le_mul_right r (by omega)
      rw [hblock (32 * r) h32r i hir (by omega)]
      rw [hpayload2, List.getD_append _ _ _ _ (by omega : i < (lengthHeader32 L).length)]
  have hmsg : steg_msg_length chan r img2 = L := by
    rw [steg_msg_length, hheader, bitsToNat_lengthHeader32]
  have hEB : (extract_bits_go chan 0 ((32 + L) * r) img2).length = (32 + L) * r :=
    hextlen _ (by omega)
  have hdecoded : decode_redundancy r (extract_bits_go chan 0 ((32 + L) * r) img2)
      = payload := by
    obtain ⟨hdl, hdg⟩ := decode_redundancy_spec hr (32 + L)
      (extract_bits_go chan 0 ((32 + L) * r) img2) (by rw [hEB]; ring)
    apply list_ext_getD 0
    · rw [hdl, hplen]
    · intro i hiL
      rw [hdl] at hiL
      rw [hdg i hiL]
      exact hblock ((32 + L) * r) (by omega) i (Nat.mul_le_mul_right r (by omega)) hiL
  rw [himg2eq, ← himg2]
  rw [extract_steganography_watermark, hmsg]
  rw [if_neg (by omega : ¬ L = 0), if_neg (by omega : ¬ 100000 < L)]
  rw [hEB]
  rw [if_neg (by omega : ¬ (32 + L) * r < (32 + L) * r)]
  rw [hdecoded]
  have hdropmsg : payload.drop 32 = bytesToBits ct := by
    rw [hpayload2, ← hhl, List.drop_left]
  have htakeL : (bytesToBits ct).take L = bytesToBits ct := by
    rw [← hL32, List.take_length]
  rw [hdropmsg, htakeL]
  rw [if_neg (by rw [hL32] ; omega : ¬ ¬ (bytesToBits ct).length % 8 = 0)]
  rw [bitsToBytes_bytesToBits ct hbytes, hdec]

/-- C6 witness: redundancy 2 (strength 50), empty flip set, 80-pixel image; extraction
recovers the record with text `"A"`. -/
theorem c6_majority_recovery_witness :
    extract_steganography_watermark c6wDec chanTwo (steg_redundancy 50)
        (flip_image ∅ chanTwo 0
          (steganography_watermark c6wEnc chanTwo (List.replicate 80 ((0, 0, 0) : Pix))
            "A" "ts" (strBytes "k") 50))
      = Except.ok c6wRec ∧ c6wRec.text = "A" :=
  c6_majority_recovery_amended c6wEnc c6wDec chanTwo (List.replicate 80 ((0, 0, 0) : Pix))
    "A" "ts" (strBytes "k") 50 ∅ (by decide) (by decide) (by decide) (by decide)
    (by decide) (by decide) (by decide)

/-- C6 counterexample: strength 50 gives r = 2, and the claim tolerates ⌊r/2⌋ = 1 flip;
but one flip, at embedded position 66 (one of the two replicas of payload bit 33, a
one), ties that block, the tie decodes to 0, and extraction returns a record whose text
is the byte 0x01, not the embedded "A". -/
theorem c6_counterexample :
    steg_redundancy 50 = 2 ∧ (1 : ℕ) ≤ 2 / 2 ∧
    extract_steganography_watermark c6wDec chanTwo (steg_redundancy 50)
        (flip_image {66} chanTwo 0
          (steganography_watermark c6wEnc chanTwo (List.replicate 80 ((0, 0, 0) : Pix))
            "A" "ts" (strBytes "k") 50))
      = Except.ok (build_steg_record (String.mk [Char.ofNat 1]) "ts" (strBytes "k")) ∧
    ¬ (build_steg_record (String.mk [Char.ofNat 1]) "ts" (strBytes "k")).text = "A" := by
  decide

end CryptoMark
